import Mathlib

/-!
Verification development for the learnP2P secure file-transfer protocol.

Bytes are modelled as `Nat` (values kept below 256), Go byte slices as
`List Nat`, Go strings as Lean `String`, and Go `int64` as `Int`.
The AES-GCM AEAD and the RSA-OAEP primitives are abstracted as function
parameters; SHA-256, hex encoding and path cleaning are implemented
concretely, following the Go standard library semantics the code relies on.
-/

set_option maxRecDepth 20000

namespace LearnP2P

/-- Model of `transfer.ChunkSize = 1 << 20`: maximum plaintext chunk size. -/
def ChunkSize : Nat := 1048576

/-- Model of `crypto.KeySize`: AES-256 key length in bytes. -/
def KeySize : Nat := 32

/-- Model of `crypto.NonceSize`: GCM nonce length in bytes. -/
def NonceSize : Nat := 12

/-- Go `byte(x)` conversion: truncation to 8 bits. -/
def byteOf (n : Nat) : Nat := n % 256

/-- Big-endian 32-bit encoding, as written by
`byte(x >> 24), byte(x >> 16), byte(x >> 8), byte(x)`. -/
def be32 (x : Nat) : List Nat :=
  [byteOf (x / 16777216), byteOf (x / 65536), byteOf (x / 256), byteOf x]

/-- Big-endian 32-bit decoding (`binary.BigEndian.Uint32`). -/
def be32val (b : List Nat) : Nat :=
  b.getD 0 0 * 16777216 + b.getD 1 0 * 65536 + b.getD 2 0 * 256 + b.getD 3 0

/-- Big-endian 64-bit encoding (used by SHA-256 length padding). -/
def be64 (x : Nat) : List Nat :=
  [byteOf (x / 2 ^ 56), byteOf (x / 2 ^ 48), byteOf (x / 2 ^ 40), byteOf (x / 2 ^ 32),
   byteOf (x / 16777216), byteOf (x / 65536), byteOf (x / 256), byteOf x]

/-- Model of `nonceFor` closure of `Send` (src/unnamed/part_000 lines 92-104):
copy the base nonce and overwrite its last 4 bytes with the big-endian
counter. -/
def senderNonceFor (base : List Nat) (ctr : Nat) : List Nat :=
  base.take (base.length - 4) ++ be32 ctr

/-- Model of `nonceFor` closure of `Receive` (src/transfer/receiver.go lines 79-90):
textually identical to the one in the sender. -/
def receiverNonceFor (base : List Nat) (ctr : Nat) : List Nat :=
  base.take (base.length - 4) ++ be32 ctr

/-- An AEAD session: base nonce plus a `uint32` counter. -/
structure Session where
  base : List Nat
  ctr : Nat
  deriving DecidableEq

/-- A fresh session: counter starts at 0. -/
def Session.start (base : List Nat) : Session := ⟨base, 0⟩

/-- One seal/open operation: derive the nonce from the current counter, then
increment the counter (uint32 wraparound, as `ctr++` on a Go `uint32`). -/
def Session.next (s : Session) : List Nat × Session :=
  (senderNonceFor s.base s.ctr, ⟨s.base, (s.ctr + 1) % 4294967296⟩)

/-- Run `k` consecutive seal/open operations, collecting the derived nonces. -/
def Session.runOps (s : Session) : Nat → List (List Nat) × Session
  | 0 => ([], s)
  | n + 1 =>
    let p := s.next
    let r := p.2.runOps n
    (p.1 :: r.1, r.2)

/-- The nonce consumed by the `i`-th operation of a session (counter values
are the Go `uint32` values, i.e. `i % 2^32`). -/
def nonceAt (base : List Nat) (i : Nat) : List Nat :=
  senderNonceFor base (i % 4294967296)

/-- The nonces of the first `k` operations of a session started at counter 0. -/
def sessionNonces (base : List Nat) (k : Nat) : List (List Nat) :=
  (List.range k).map (nonceAt base)

/-! ### SHA-256 (crypto/sha256), over byte lists -/

def M32 : Nat := 4294967296

def add32 (a b : Nat) : Nat := (a + b) % M32

/-- 32-bit right rotation (inputs below `2^32`). -/
def rotr (n x : Nat) : Nat := (x / 2 ^ n + x * 2 ^ (32 - n)) % M32

def bnot32 (x : Nat) : Nat := Nat.xor x 4294967295

def shaCh (e f g : Nat) : Nat := Nat.xor (Nat.land e f) (Nat.land (bnot32 e) g)

def shaMaj (a b c : Nat) : Nat :=
  Nat.xor (Nat.xor (Nat.land a b) (Nat.land a c)) (Nat.land b c)

def bigSigma0 (x : Nat) : Nat := Nat.xor (Nat.xor (rotr 2 x) (rotr 13 x)) (rotr 22 x)

def bigSigma1 (x : Nat) : Nat := Nat.xor (Nat.xor (rotr 6 x) (rotr 11 x)) (rotr 25 x)

def smallSigma0 (x : Nat) : Nat := Nat.xor (Nat.xor (rotr 7 x) (rotr 18 x)) (x / 8)

def smallSigma1 (x : Nat) : Nat := Nat.xor (Nat.xor (rotr 17 x) (rotr 19 x)) (x / 1024)

def sha256K : List Nat :=
  [1116352408, 1899447441, 3049323471, 3921009573, 961987163, 1508970993,
   2453635748, 2870763221, 3624381080, 310598401, 607225278, 1426881987,
   1925078388, 2162078206, 2614888103, 3248222580, 3835390401, 4022224774,
   264347078, 604807628, 770255983, 1249150122, 1555081692, 1996064986,
   2554220882, 2821834349, 2952996808, 3210313671, 3336571891, 3584528711,
   113926993, 338241895, 666307205, 773529912, 1294757372, 1396182291,
   1695183700, 1986661051, 2177026350, 2456956037, 2730485921, 2820302411,
   3259730800, 3345764771, 3516065817, 3600352804, 4094571909, 275423344,
   430227734, 506948616, 659060556, 883997877, 958139571, 1322822218,
   1537002063, 1747873779, 1955562222, 2024104815, 2227730452, 2361852424,
   2428436474, 2756734187, 3204031479, 3329325298]

/-- Fuel-driven worker for `chunksOf` (structural recursion so that the
kernel can evaluate it; the fuel is irrelevant once it covers the length). -/
def chunksOfAux (n : Nat) : Nat → List Nat → List (List Nat)
  | 0, _ => []
  | _, [] => []
  | fuel + 1, b :: bs => (b :: bs).take n :: chunksOfAux n fuel ((b :: bs).drop n)

/-- Split a byte list into consecutive pieces of `n` bytes (last may be
shorter); the empty list yields no pieces. -/
def chunksOf (n : Nat) (l : List Nat) : List (List Nat) :=
  chunksOfAux n l.length l

/-- SHA-256 padding: append `0x80`, zeros, and the 64-bit bit length. -/
def shaPad (msg : List Nat) : List Nat :=
  msg ++ 128 :: List.replicate ((64 - (msg.length + 9) % 64) % 64) 0 ++ be64 (8 * msg.length)

/-- The 16 message words of a 64-byte block. -/
def wordsOfBlock (b : List Nat) : List Nat :=
  (chunksOf 4 b).map (fun c => c.getD 0 0 * 16777216 + c.getD 1 0 * 65536 + c.getD 2 0 * 256 + c.getD 3 0)

/-- Extend the message schedule by `n` further words. -/
def extendW (ws : List Nat) : Nat → List Nat
  | 0 => ws
  | n + 1 =>
    let i := ws.length
    let w := (ws.getD (i - 16) 0 + smallSigma0 (ws.getD (i - 15) 0) +
              ws.getD (i - 7) 0 + smallSigma1 (ws.getD (i - 2) 0)) % M32
    extendW (ws ++ [w]) n

/-- SHA-256 working state. -/
structure Hs where
  a : Nat
  b : Nat
  c : Nat
  d : Nat
  e : Nat
  f : Nat
  g : Nat
  h : Nat
  deriving DecidableEq

def sha256Init : Hs :=
  ⟨1779033703, 3144134277, 1013904242, 2773480762, 1359893119, 2600822924, 528734635, 1541459225⟩

def shaRound (W : List Nat) (st : Hs) (i : Nat) : Hs :=
  let t1 := (st.h + bigSigma1 st.e + shaCh st.e st.f st.g + sha256K.getD i 0 + W.getD i 0) % M32
  let t2 := (bigSigma0 st.a + shaMaj st.a st.b st.c) % M32
  ⟨(t1 + t2) % M32, st.a, st.b, st.c, (st.d + t1) % M32, st.e, st.f, st.g⟩

def shaBlock (st : Hs) (block : List Nat) : Hs :=
  let W := extendW (wordsOfBlock block) 48
  let r := (List.range 64).foldl (shaRound W) st
  ⟨add32 st.a r.a, add32 st.b r.b, add32 st.c r.c, add32 st.d r.d,
   add32 st.e r.e, add32 st.f r.f, add32 st.g r.g, add32 st.h r.h⟩

/-- SHA-256 digest of a byte list, as 32 bytes. -/
def sha256 (msg : List Nat) : List Nat :=
  let s := (chunksOf 64 (shaPad msg)).foldl shaBlock sha256Init
  be32 s.a ++ be32 s.b ++ be32 s.c ++ be32 s.d ++ be32 s.e ++ be32 s.f ++ be32 s.g ++ be32 s.h

/-! ### Hex encoding (encoding/hex) -/

/-- Lowercase hex digit, as `encoding/hex` emits. -/
def hexDigitChar (n : Nat) : Char := Char.ofNat (if n < 10 then 48 + n else 87 + n)

/-- Model of `hex.EncodeToString`. -/
def hexEncode (bs : List Nat) : String :=
  ⟨bs.flatMap (fun b => [hexDigitChar (b / 16 % 16), hexDigitChar (b % 16)])⟩

/-- Model of `fromHexChar`: accepts `0-9`, `a-f`, `A-F`. -/
def hexDigitVal (c : Char) : Option Nat :=
  if 48 ≤ c.toNat ∧ c.toNat ≤ 57 then some (c.toNat - 48)
  else if 97 ≤ c.toNat ∧ c.toNat ≤ 102 then some (c.toNat - 87)
  else if 65 ≤ c.toNat ∧ c.toNat ≤ 70 then some (c.toNat - 55)
  else none

def hexDecodeChars : List Char → Option (List Nat)
  | [] => some []
  | [_] => none
  | c1 :: c2 :: rest =>
    match hexDigitVal c1, hexDigitVal c2, hexDecodeChars rest with
    | some hi, some lo, some r => some ((hi * 16 + lo) :: r)
    | _, _, _ => none

/-- Model of `hex.DecodeString`: `none` on odd length or an invalid digit. -/
def hexDecode (s : String) : Option (List Nat) := hexDecodeChars s.data

/-- ASCII bytes of a string (Go string-to-`[]byte` conversion for the ASCII
literals used by the protocol). -/
def strBytes (s : String) : List Nat := s.data.map Char.toNat

/-- Associated data of the manifest frame: the literal `"manifest"`. -/
def manifestAAD : List Nat := strBytes ("manifest")

/-! ### Lexical path handling (path/filepath on Unix) -/

/-- Split on `/` (like `strings.Split(s, "/")`). -/
def splitSlash : List Char → List (List Char)
  | [] => [[]]
  | c :: rest =>
    let r := splitSlash rest
    if c = '/' then [] :: r
    else
      match r with
      | [] => [[c]]
      | h :: t => (c :: h) :: t

/-- Path components: empty and `.` elements dropped, as `filepath.Clean` does. -/
def pathComps (l : List Char) : List (List Char) :=
  (splitSlash l).filter (fun c => !(c == []) && !(c == ['.']))

/-- Elimination of `..` over components, as in `filepath.Clean` (stack-based). -/
def resolveComps (abs : Bool) : List (List Char) → List (List Char) → List (List Char)
  | st, [] => st.reverse
  | st, c :: rest =>
    if c == ['.', '.'] then
      match st with
      | [] => if abs then resolveComps abs [] rest else resolveComps abs [['.', '.']] rest
      | t :: st0 =>
        if t == ['.', '.'] then resolveComps abs (c :: t :: st0) rest
        else resolveComps abs st0 rest
    else resolveComps abs (c :: st) rest

def joinComps : List (List Char) → List Char
  | [] => []
  | [c] => c
  | c :: cs => c ++ '/' :: joinComps cs

/-- Model of `filepath.Clean` (Unix separator). -/
def cleanChars (l : List Char) : List Char :=
  let abs : Bool := match l with | c :: _ => c == '/' | [] => false
  let rs := resolveComps abs [] (pathComps l)
  if abs then '/' :: joinComps rs
  else if rs = [] then ['.'] else joinComps rs

def cleanPath (p : String) : String := ⟨cleanChars p.data⟩

/-- Model of `filepath.Join(a, b)`: concatenate the non-empty elements with `/` and
Clean the result. -/
def joinPath (a b : String) : String :=
  if b = "" then cleanPath a else ⟨cleanChars (a.data ++ '/' :: b.data)⟩

/-- Model of `transfer.PublicDir`. -/
def PublicDir : String := "public"

/-- Final output path of the receiver, `filepath.Join(PublicDir, man.Name)`. -/
def outPathOf (name : String) : String := joinPath PublicDir name

/-- Temporary path of the receiver, `outPath` plus `.part`. -/
def tmpPathOf (name : String) : String := outPathOf name ++ ".part"

/-- Boolean prefix test on character lists. -/
def hasPrefixChars : List Char → List Char → Bool
  | [], _ => true
  | _ :: _, [] => false
  | a :: as, b :: bs => a == b && hasPrefixChars as bs

/-- Model of `p` names an entry strictly inside the `public` directory. -/
def withinPublic (p : String) : Bool :=
  hasPrefixChars ("public/".data) p.data && decide (7 < p.data.length)

/-- The manifest name consists of plain relative path components: at least
one component and no `..` component (after dropping empty and `.` ones). -/
def safeName (name : String) : Prop :=
  pathComps name.data ≠ [] ∧ ['.', '.'] ∉ pathComps name.data

instance (name : String) : Decidable (safeName name) := by
  unfold safeName
  infer_instance

/-! ### Manifest (transfer/manifest.go) -/

/-- Model of `transfer.Manifest`: name, size (int64), hex-encoded SHA-256 hash. -/
structure Manifest where
  name : String
  size : Int
  hash : String
  deriving DecidableEq

/-- Model of `BuildManifest`, for a file with the given contents: size is the byte
count, hash the hex-encoded SHA-256 digest. -/
def buildManifest (name : String) (data : List Nat) : Manifest :=
  ⟨name, (data.length : Int), hexEncode (sha256 data)⟩

/-! ### Secure sender (`Send`, src/unnamed/part_000) -/

/-- A length-prefixed frame: `uint32(len(ct)) | ct`. -/
def frameBytes (ct : List Nat) : List Nat := be32 ct.length ++ ct

/-- The chunk frames: each non-empty block sealed with the running counter
nonce and the manifest-hash associated data. -/
def chunkFrames (sealFn : List Nat → List Nat → List Nat → List Nat)
    (base hashBytes : List Nat) : Nat → List (List Nat) → List (List Nat)
  | _, [] => []
  | ctr, c :: cs =>
    frameBytes (sealFn (senderNonceFor base ctr) c hashBytes) ::
      chunkFrames sealFn base hashBytes ((ctr + 1) % 4294967296) cs

/-- Everything `Send` writes after the key-delivery header: the sealed
manifest frame (counter 0, AAD `"manifest"`) followed by the sealed chunk
frames (counters 1, 2, …, AAD = manifest hash bytes). -/
def sendFrames (sealFn : List Nat → List Nat → List Nat → List Nat)
    (base manBytes hashBytes data : List Nat) : List Nat :=
  frameBytes (sealFn (senderNonceFor base 0) manBytes manifestAAD) ++
    (chunkFrames sealFn base hashBytes 1 (chunksOf ChunkSize data)).flatten

/-- Model of `Send`: parse the public-key announcement of the receiver from `input`
(tag `0x01`, length-checked), then emit the key-delivery header
`0x02 | uint32(len(encKey)) | encKey | baseNonce` followed by the frames.
`sealOf key` is the AEAD built from the session key; `rsaEnc pub` is
RSA-OAEP encryption under the announced public key. `none` models the
fatal handshake errors. -/
def sendRun {P : Type} (parsePub : List Nat → Option P)
    (rsaEnc : P → List Nat → List Nat)
    (sealOf : List Nat → List Nat → List Nat → List Nat → List Nat)
    (jsonEnc : Manifest → List Nat)
    (key base : List Nat) (name : String) (data : List Nat)
    (input : List Nat) : Option (List Nat) :=
  let man := buildManifest name data
  match input with
  | [] => none
  | t :: in1 =>
    if t ≠ 1 then none
    else if in1.length < 4 then none
    else
      let pkLen := be32val (in1.take 4)
      let in2 := in1.drop 4
      if pkLen = 0 ∨ 1000000 < pkLen then none
      else if in2.length < pkLen then none
      else
        match parsePub (in2.take pkLen) with
        | none => none
        | some pub =>
          let encKey := rsaEnc pub key
          match hexDecode man.hash with
          | none => none
          | some hashBytes =>
            some (2 :: (be32 encKey.length ++ encKey ++ base ++
              sendFrames (sealOf key) base (jsonEnc man) hashBytes data))

/-! ### Secure receiver (`Receive`, src/transfer/receiver.go) -/

/-- The error exits of `Receive` after the session is set up. -/
inductive RecvErr where
  | readManifestLen
  | readManifest
  | decryptManifest
  | decodeManifest
  | decodeHash
  | readChunkLen
  | readChunk
  | decryptChunk
  | writeFile
  | hashMismatch (computed : String) (expected : String)
  deriving DecidableEq

/-- State at exit of the chunk loop: bytes appended to the temp file, total
written, session counter, unread stream remainder, and the error if any. -/
structure LoopRes where
  acc : List Nat
  written : Int
  ctr : Nat
  rest : List Nat
  err : Option RecvErr
  deriving DecidableEq

/-- Fuel-driven worker for the chunk loop of the receiver
(`for written < man.Size { … }`, receiver.go lines 134-162).  Each
iteration reads a `uint32` length and that many ciphertext bytes, opens
them with the next counter nonce and the manifest-hash AAD, appends the
plaintext to the temp file and adds its length to `written`.  `writeOk i`
models whether the `i`-th `out.Write` succeeds.  The fuel never runs out
when it exceeds the stream length, since each iteration consumes at least
4 bytes. -/
def recvLoopAux (openFn : List Nat → List Nat → List Nat → Option (List Nat))
    (writeOk : Nat → Bool) (base hashBytes : List Nat) (size : Int) :
    Nat → List Nat → Int → List Nat → Nat → Nat → LoopRes
  | 0, s, written, acc, ctr, _ => ⟨acc, written, ctr, s, some .readChunkLen⟩
  | fuel + 1, s, written, acc, ctr, wIdx =>
    if written < size then
      if s.length < 4 then
        -- binary.Read failed; `err == io.EOF && written == man.Size` would
        -- break cleanly, but `written < man.Size` holds here.
        if s.length = 0 ∧ written = size then ⟨acc, written, ctr, s, none⟩
        else ⟨acc, written, ctr, s, some .readChunkLen⟩
      else
        let clen := be32val (s.take 4)
        let s1 := s.drop 4
        if s1.length < clen then ⟨acc, written, ctr, s1, some .readChunk⟩
        else
          let ct := s1.take clen
          let s2 := s1.drop clen
          match openFn (receiverNonceFor base ctr) ct hashBytes with
          | none => ⟨acc, written, (ctr + 1) % 4294967296, s2, some .decryptChunk⟩
          | some pt =>
            if writeOk wIdx then
              recvLoopAux openFn writeOk base hashBytes size fuel s2
                (written + (pt.length : Int)) (acc ++ pt) ((ctr + 1) % 4294967296) (wIdx + 1)
            else ⟨acc, written, (ctr + 1) % 4294967296, s2, some .writeFile⟩
    else ⟨acc, written, ctr, s, none⟩

/-- The chunk loop of the receiver on stream `s`. -/
def recvLoop (openFn : List Nat → List Nat → List Nat → Option (List Nat))
    (writeOk : Nat → Bool) (base hashBytes : List Nat) (size : Int)
    (s : List Nat) (written : Int) (acc : List Nat) (ctr wIdx : Nat) : LoopRes :=
  recvLoopAux openFn writeOk base hashBytes size (s.length + 1) s written acc ctr wIdx

/-- Observable outcome of `Receive` from the manifest frame on: the decoded
manifest (if reached), the temp and final files present on disk at return
(path and contents), the error, and the returned pair. -/
structure RecvOutcome where
  man : Option Manifest
  tmp : Option (String × List Nat)
  final : Option (String × List Nat)
  err : Option RecvErr
  ret : Option (Manifest × String)
  deriving DecidableEq

/-- Model of `Receive` from step 2 on (receiver.go lines 92-188): read and open the
manifest frame (counter 0, AAD `"manifest"`), JSON-decode it, create
`public/<name>.part`, hex-decode the manifest hash, run the chunk loop
(counters 1, 2, …), then verify the SHA-256 of everything written: on
mismatch delete the temp file and fail, on match rename it to
`public/<name>`. -/
def receiveBody (openFn : List Nat → List Nat → List Nat → Option (List Nat))
    (jsonDec : List Nat → Option Manifest) (writeOk : Nat → Bool)
    (base : List Nat) (s : List Nat) : RecvOutcome :=
  if s.length < 4 then ⟨none, none, none, some .readManifestLen, none⟩
  else
    let clen := be32val (s.take 4)
    let s1 := s.drop 4
    if s1.length < clen then ⟨none, none, none, some .readManifest, none⟩
    else
      let cman := s1.take clen
      let s2 := s1.drop clen
      match openFn (receiverNonceFor base 0) cman manifestAAD with
      | none => ⟨none, none, none, some .decryptManifest, none⟩
      | some mbytes =>
        match jsonDec mbytes with
        | none => ⟨none, none, none, some .decodeManifest, none⟩
        | some man =>
          let outPath := outPathOf man.name
          let tmpPath := tmpPathOf man.name
          -- os.Create(tmpPath) happens here, before the hash hex-decode.
          match hexDecode man.hash with
          | none => ⟨some man, some (tmpPath, []), none, some .decodeHash, none⟩
          | some hashBytes =>
            let r := recvLoop openFn writeOk base hashBytes man.size s2 0 [] 1 0
            match r.err with
            | some e => ⟨some man, some (tmpPath, r.acc), none, some e, none⟩
            | none =>
              let calcHex := hexEncode (sha256 r.acc)
              if calcHex ≠ man.hash then
                -- cleanup partial file, report computed vs expected
                ⟨some man, none, none, some (.hashMismatch calcHex man.hash), none⟩
              else
                -- os.Rename(tmpPath, outPath)
                ⟨some man, none, some (outPath, r.acc), none, some (man, outPath)⟩

/-- The tail of `Receive` after the chunk loop (receiver.go lines 164-188),
as a function of the loop result: verify the SHA-256 of everything written,
delete the temp file and fail on mismatch, rename it on match. -/
def recvFinish (man : Manifest) (r : LoopRes) : RecvOutcome :=
  match r.err with
  | some e => ⟨some man, some (tmpPathOf man.name, r.acc), none, some e, none⟩
  | none =>
    if hexEncode (sha256 r.acc) ≠ man.hash then
      ⟨some man, none, none,
        some (.hashMismatch (hexEncode (sha256 r.acc)) man.hash), none⟩
    else ⟨some man, none, some (outPathOf man.name, r.acc), none,
        some (man, outPathOf man.name)⟩

/-! ### Stream adapter (`dcConn`, src/connections/webrtc_stream.go) -/

/-- The data pipe between a `dcConn` writer and the reader at the peer: `cur` is
the partially consumed message, `msgs` the queued messages in arrival
order. -/
structure DCState where
  cur : List Nat
  msgs : List (List Nat)
  deriving DecidableEq

/-- Model of `dcConn.Write`: split the payload into fragments of at most 32 KiB and
hand them to the channel in order (the backpressure wait only delays the
sends; it does not alter them). -/
def dcWrite (st : DCState) (p : List Nat) : DCState :=
  ⟨st.cur, st.msgs ++ chunksOf 32768 p⟩

def dcWrites (st : DCState) (ws : List (List Nat)) : DCState := ws.foldl dcWrite st

/-- Model of `dcConn.Read` worker: pop queued messages while the current buffer is
empty (EOF once the closed channel is exhausted), then hand out up to `n`
bytes from the front. -/
def dcReadAux (n : Nat) : List Nat → List (List Nat) → Option (List Nat × DCState)
  | [], [] => none
  | [], m :: rest => dcReadAux n m rest
  | c :: cs, msgs => some ((c :: cs).take n, ⟨(c :: cs).drop n, msgs⟩)

def dcRead (st : DCState) (n : Nat) : Option (List Nat × DCState) :=
  dcReadAux n st.cur st.msgs

/-- All bytes still obtainable from the pipe. -/
def dcDrain (st : DCState) : List Nat := st.cur ++ st.msgs.flatten

/-- Bytes a reader obtains with a given schedule of read sizes. -/
def dcReadSeq (st : DCState) : List Nat → List Nat
  | [] => []
  | n :: rest =>
    match dcRead st n with
    | none => []
    | some (r, st1) => r ++ dcReadSeq st1 rest

/-! ### Basic lemmas -/

theorem be32_length (x : Nat) : (be32 x).length = 4 := rfl

theorem be32val_be32 (x : Nat) : be32val (be32 x) = x % 4294967296 := by
  simp only [be32, be32val, byteOf, List.getD_cons_zero, List.getD_cons_succ]
  omega

theorem be32val_of_lt {x : Nat} (h : x < 4294967296) : be32val (be32 x) = x := by
  rw [be32val_be32]; omega

theorem be32_mod (x : Nat) : be32 (x % 4294967296) = be32 x := by
  simp only [be32, byteOf, List.cons.injEq, and_true]
  omega

theorem mem_be32_lt {b x : Nat} (h : b ∈ be32 x) : b < 256 := by
  have hb : b = byteOf (x / 16777216) ∨ b = byteOf (x / 65536) ∨ b = byteOf (x / 256) ∨
      b = byteOf x := by simpa [be32] using h
  unfold byteOf at hb
  rcases hb with h1 | h1 | h1 | h1 <;> omega

theorem take_append_of_length {α : Type} (l₁ l₂ : List α) (n : Nat) (h : l₁.length = n) :
    (l₁ ++ l₂).take n = l₁ := by
  subst h; exact List.take_left l₁ l₂

theorem drop_append_of_length {α : Type} (l₁ l₂ : List α) (n : Nat) (h : l₁.length = n) :
    (l₁ ++ l₂).drop n = l₂ := by
  subst h; exact List.drop_left l₁ l₂

/-! ### chunksOf lemmas -/

theorem chunksOfAux_nil (n fuel : Nat) : chunksOfAux n fuel [] = [] := by
  cases fuel <;> cases n <;> rfl

theorem chunksOfAux_cons (n f : Nat) (hn : 0 < n) (b : Nat) (bs : List Nat) :
    chunksOfAux n (f + 1) (b :: bs) = (b :: bs).take n :: chunksOfAux n f ((b :: bs).drop n) := by
  obtain ⟨m, rfl⟩ := Nat.exists_eq_succ_of_ne_zero (Nat.pos_iff_ne_zero.mp hn)
  rfl

theorem chunksOfAux_irrel (n : Nat) (hn : 0 < n) :
    ∀ fuel fuel' (l : List Nat), l.length ≤ fuel → l.length ≤ fuel' →
      chunksOfAux n fuel l = chunksOfAux n fuel' l := by
  intro fuel
  induction fuel with
  | zero =>
    intro fuel' l hl _
    have : l = [] := List.eq_nil_of_length_eq_zero (Nat.le_zero.mp hl)
    subst this
    rw [chunksOfAux_nil, chunksOfAux_nil]
  | succ f ih =>
    intro fuel' l hl hl'
    cases l with
    | nil => rw [chunksOfAux_nil, chunksOfAux_nil]
    | cons b bs =>
      cases fuel' with
      | zero => simp at hl'
      | succ f' =>
        rw [chunksOfAux_cons n f hn, chunksOfAux_cons n f' hn]
        congr 1
        apply ih
        · simp only [List.length_drop, List.length_cons]
          simp only [List.length_cons] at hl
          omega
        · simp only [List.length_drop, List.length_cons]
          simp only [List.length_cons] at hl'
          omega

theorem chunksOf_nil (n : Nat) : chunksOf n [] = [] := by
  simp [chunksOf, chunksOfAux_nil]

theorem chunksOf_cons (n : Nat) (hn : 0 < n) (l : List Nat) (hne : l ≠ []) :
    chunksOf n l = l.take n :: chunksOf n (l.drop n) := by
  cases l with
  | nil => exact absurd rfl hne
  | cons b bs =>
    show chunksOfAux n (bs.length + 1) (b :: bs) = _
    rw [chunksOfAux_cons n bs.length hn]
    congr 1
    apply chunksOfAux_irrel n hn
    · simp only [List.length_drop, List.length_cons]; omega
    · exact le_rfl

theorem chunksOfAux_flatten (n : Nat) (hn : 0 < n) :
    ∀ fuel (l : List Nat), l.length ≤ fuel → (chunksOfAux n fuel l).flatten = l := by
  intro fuel
  induction fuel with
  | zero =>
    intro l hl
    have : l = [] := List.eq_nil_of_length_eq_zero (Nat.le_zero.mp hl)
    subst this
    rw [chunksOfAux_nil]; rfl
  | succ f ih =>
    intro l hl
    cases l with
    | nil => rw [chunksOfAux_nil]; rfl
    | cons b bs =>
      rw [chunksOfAux_cons n f hn]
      simp only [List.flatten_cons]
      have hlen : ((b :: bs).drop n).length ≤ f := by
        simp only [List.length_drop, List.length_cons]
        simp only [List.length_cons] at hl
        omega
      rw [ih _ hlen]
      exact List.take_append_drop n (b :: bs)

theorem chunksOf_flatten (n : Nat) (hn : 0 < n) (l : List Nat) :
    (chunksOf n l).flatten = l :=
  chunksOfAux_flatten n hn l.length l le_rfl

theorem chunksOfAux_length (n : Nat) (hn : 0 < n) :
    ∀ fuel (l : List Nat), l.length ≤ fuel →
      (chunksOfAux n fuel l).length = (l.length + n - 1) / n := by
  intro fuel
  induction fuel with
  | zero =>
    intro l hl
    have : l = [] := List.eq_nil_of_length_eq_zero (Nat.le_zero.mp hl)
    subst this
    rw [chunksOfAux_nil]
    simp only [List.length_nil]
    rw [Nat.div_eq_of_lt (by omega)]
  | succ f ih =>
    intro l hl
    cases l with
    | nil =>
      rw [chunksOfAux_nil]
      simp only [List.length_nil]
      rw [Nat.div_eq_of_lt (by omega)]
    | cons b bs =>
      rw [chunksOfAux_cons n f hn]
      simp only [List.length_cons]
      have hlen : ((b :: bs).drop n).length ≤ f := by
        simp only [List.length_drop, List.length_cons]
        simp only [List.length_cons] at hl
        omega
      rw [ih _ hlen]
      simp only [List.length_drop, List.length_cons]
      rcases le_or_lt (bs.length + 1) n with hle | hgt
      · have h1 : bs.length + 1 - n = 0 := by omega
        rw [h1]
        rw [Nat.div_eq_of_lt (show 0 + n - 1 < n by omega)]
        have h3 : bs.length + 1 + n - 1 = (bs.length + 1 - 1) + n := by omega
        rw [h3, Nat.add_div_right _ hn, Nat.div_eq_of_lt (by omega)]
      · have h3 : bs.length + 1 + n - 1 = (bs.length + 1 - n + n - 1) + n := by omega
        have h4 : bs.length + 1 - n + n - 1 + n = (bs.length + 1 - n) + n - 1 + n := rfl
        rw [h3, Nat.add_div_right _ hn]

theorem chunksOf_length (n : Nat) (hn : 0 < n) (l : List Nat) :
    (chunksOf n l).length = (l.length + n - 1) / n :=
  chunksOfAux_length n hn l.length l le_rfl

theorem chunksOfAux_mem (n : Nat) (hn : 0 < n) :
    ∀ fuel (l : List Nat), l.length ≤ fuel →
      ∀ c ∈ chunksOfAux n fuel l, c ≠ [] ∧ c.length ≤ n := by
  intro fuel
  induction fuel with
  | zero =>
    intro l hl
    have : l = [] := List.eq_nil_of_length_eq_zero (Nat.le_zero.mp hl)
    subst this
    rw [chunksOfAux_nil]
    intro c hc
    simp at hc
  | succ f ih =>
    intro l hl
    cases l with
    | nil =>
      rw [chunksOfAux_nil]
      intro c hc
      simp at hc
    | cons b bs =>
      rw [chunksOfAux_cons n f hn]
      intro c hc
      rcases List.mem_cons.mp hc with h | h
      · subst h
        refine ⟨?_, by simp⟩
        simp only [ne_eq, List.take_eq_nil_iff]
        intro hcon
        rcases hcon with h | h
        · omega
        · simp at h
      · have hlen : ((b :: bs).drop n).length ≤ f := by
          simp only [List.length_drop, List.length_cons]
          simp only [List.length_cons] at hl
          omega
        exact ih _ hlen c h

theorem mem_chunksOf (n : Nat) (hn : 0 < n) (l : List Nat) :
    ∀ c ∈ chunksOf n l, c ≠ [] ∧ c.length ≤ n :=
  chunksOfAux_mem n hn l.length l le_rfl

/-! ### Hex lemmas -/

theorem hexDigitVal_hexDigitChar : ∀ m, m < 16 → hexDigitVal (hexDigitChar m) = some m := by
  decide

theorem hexEncode_data (bs : List Nat) :
    (hexEncode bs).data = bs.flatMap (fun b => [hexDigitChar (b / 16 % 16), hexDigitChar (b % 16)]) :=
  rfl

theorem hexDecode_hexEncode (bs : List Nat) (h : ∀ b ∈ bs, b < 256) :
    hexDecode (hexEncode bs) = some bs := by
  show hexDecodeChars (hexEncode bs).data = some bs
  rw [hexEncode_data]
  induction bs with
  | nil => rfl
  | cons b bs ih =>
    have hb : b < 256 := h b (List.mem_cons_self b bs)
    have hrest : ∀ x ∈ bs, x < 256 := fun x hx => h x (List.mem_cons_of_mem b hx)
    simp only [List.flatMap_cons, List.cons_append, List.nil_append]
    show hexDecodeChars (hexDigitChar (b / 16 % 16) :: hexDigitChar (b % 16) :: _) = _
    unfold hexDecodeChars
    rw [hexDigitVal_hexDigitChar (b / 16 % 16) (by omega),
        hexDigitVal_hexDigitChar (b % 16) (by omega), ih hrest]
    show some ((b / 16 % 16 * 16 + b % 16) :: bs) = some (b :: bs)
    have : b / 16 % 16 * 16 + b % 16 = b := by omega
    rw [this]

theorem mem_sha256_lt (msg : List Nat) : ∀ b ∈ sha256 msg, b < 256 := by
  intro b hb
  unfold sha256 at hb
  simp only [List.mem_append] at hb
  rcases hb with ((((((h | h) | h) | h) | h) | h) | h) | h <;> exact mem_be32_lt h

theorem sha256_length (msg : List Nat) : (sha256 msg).length = 32 := by
  unfold sha256
  simp [be32_length]

/-! ### Nonce and session lemmas -/

theorem receiverNonceFor_eq_senderNonceFor :
    ∀ base ctr, receiverNonceFor base ctr = senderNonceFor base ctr := fun _ _ => rfl

theorem senderNonceFor_length {base : List Nat} (h : base.length = 12) (ctr : Nat) :
    (senderNonceFor base ctr).length = 12 := by
  simp [senderNonceFor, be32_length, h]

theorem nonceAt_mod (base : List Nat) (i : Nat) :
    nonceAt base i = senderNonceFor base (i % 4294967296) := rfl

theorem nonceAt_take8 {base : List Nat} (h : base.length = 12) {i : Nat}
    (hi : i < 4294967296) : nonceAt base i = base.take 8 ++ be32 i := by
  simp only [nonceAt, senderNonceFor, h, Nat.mod_eq_of_lt hi]

theorem nonceAt_drop8 {base : List Nat} (h : base.length = 12) (i : Nat) :
    (nonceAt base i).drop 8 = be32 i := by
  simp only [nonceAt, senderNonceFor, h]
  have hlen : (base.take 8).length = 8 := by simp [h]
  rw [show (8:Nat) = (base.take 8).length from hlen.symm, List.drop_left, be32_mod]

theorem nonceAt_inj {base : List Nat} (h : base.length = 12) {i j : Nat}
    (hi : i < 4294967296) (hj : j < 4294967296) (hij : nonceAt base i = nonceAt base j) :
    i = j := by
  have := congrArg (fun l => be32val (l.drop 8)) hij
  simp only [nonceAt_drop8 h] at this
  rw [be32val_be32, be32val_be32] at this
  omega

theorem runOps_spec (base : List Nat) :
    ∀ k c, c < 4294967296 →
      ((⟨base, c⟩ : Session).runOps k).1 = (List.range k).map (fun i => nonceAt base (c + i)) ∧
      ((⟨base, c⟩ : Session).runOps k).2 = ⟨base, (c + k) % 4294967296⟩ := by
  intro k
  induction k with
  | zero =>
    intro c hc
    refine ⟨rfl, ?_⟩
    show Session.mk base c = _
    rw [Nat.add_zero, Nat.mod_eq_of_lt hc]
  | succ n ih =>
    intro c hc
    have hc1 : (c + 1) % 4294967296 < 4294967296 := Nat.mod_lt _ (by omega)
    obtain ⟨ih1, ih2⟩ := ih ((c + 1) % 4294967296) hc1
    constructor
    · show senderNonceFor base c :: ((⟨base, (c + 1) % 4294967296⟩ : Session).runOps n).1 = _
      rw [ih1, List.range_succ_eq_map]
      simp only [List.map_cons, List.map_map]
      rw [List.cons.injEq]
      constructor
      · rw [nonceAt_mod, Nat.add_zero, Nat.mod_eq_of_lt hc]
      · apply List.map_congr_left
        intro i _
        show nonceAt base ((c + 1) % 4294967296 + i) = nonceAt base (c + (i + 1))
        simp only [nonceAt, senderNonceFor, List.append_cancel_left_eq, be32]
        simp only [byteOf, List.cons.injEq, and_true]
        omega
    · show ((⟨base, (c + 1) % 4294967296⟩ : Session).runOps n).2 = _
      rw [ih2]
      simp only [Session.mk.injEq, true_and]
      omega

theorem runOps_start (base : List Nat) (k : Nat) :
    ((Session.start base).runOps k).1 = sessionNonces base k := by
  have := (runOps_spec base k 0 (by omega)).1
  simp only [Session.start, sessionNonces]
  rw [this]
  apply List.map_congr_left
  intro i _
  rw [Nat.zero_add]

theorem sessionNonces_eq (base : List Nat) (h : base.length = 12) (k : Nat)
    (hk : k ≤ 4294967296) :
    sessionNonces base k = (List.range k).map (fun i => base.take 8 ++ be32 i) := by
  unfold sessionNonces
  apply List.map_congr_left
  intro i hi
  have : i < 4294967296 := lt_of_lt_of_le (List.mem_range.mp hi) hk
  exact nonceAt_take8 h this

theorem sessionNonces_nodup (base : List Nat) (h : base.length = 12) (k : Nat)
    (hk : k ≤ 4294967296) : (sessionNonces base k).Nodup := by
  unfold sessionNonces
  apply List.Nodup.map_on
  · intro i hi j hj hij
    exact nonceAt_inj h (lt_of_lt_of_le (List.mem_range.mp hi) hk)
      (lt_of_lt_of_le (List.mem_range.mp hj) hk) hij
  · exact List.nodup_range k

theorem sessionNonces_counters (base : List Nat) (h : base.length = 12) (k : Nat)
    (hk : k ≤ 4294967296) :
    (sessionNonces base k).map (fun n => be32val (n.drop 8)) = List.range k := by
  unfold sessionNonces
  rw [List.map_map]
  refine (List.map_congr_left ?_).trans (List.map_id _)
  intro i hi
  have hlt : i < 4294967296 := lt_of_lt_of_le (List.mem_range.mp hi) hk
  show be32val ((nonceAt base i).drop 8) = i
  rw [nonceAt_drop8 h, be32val_be32]
  omega

/-! ### Receiver loop lemmas -/

theorem hexDecode_buildManifest (name : String) (data : List Nat) :
    hexDecode (buildManifest name data).hash = some (sha256 data) :=
  hexDecode_hexEncode (sha256 data) (mem_sha256_lt data)

theorem recvLoopAux_irrel (openFn : List Nat → List Nat → List Nat → Option (List Nat))
    (writeOk : Nat → Bool) (base hashBytes : List Nat) (size : Int) :
    ∀ fuel fuel' (s : List Nat) (written : Int) (acc : List Nat) (ctr wIdx : Nat),
      s.length < fuel → s.length < fuel' →
      recvLoopAux openFn writeOk base hashBytes size fuel s written acc ctr wIdx =
        recvLoopAux openFn writeOk base hashBytes size fuel' s written acc ctr wIdx := by
  intro fuel
  induction fuel with
  | zero => intro fuel' s _ _ _ _ hf _; omega
  | succ f ih =>
    intro fuel' s written acc ctr wIdx hf hf'
    cases fuel' with
    | zero => omega
    | succ f' =>
      simp only [recvLoopAux]
      by_cases h1 : written < size
      · simp only [if_pos h1]
        by_cases h2 : s.length < 4
        · simp only [if_pos h2]
        · simp only [if_neg h2]
          by_cases h3 : (s.drop 4).length < be32val (s.take 4)
          · simp only [if_pos h3]
          · simp only [if_neg h3]
            cases hof : openFn (receiverNonceFor base ctr)
                ((s.drop 4).take (be32val (s.take 4))) hashBytes with
            | none => rfl
            | some pt =>
              by_cases h4 : writeOk wIdx = true
              · simp only [if_pos h4]
                apply ih
                · simp only [List.length_drop]; omega
                · simp only [List.length_drop]; omega
              · simp only [if_neg h4]
      · simp only [if_neg h1]

theorem recvLoop_immediate (openFn : List Nat → List Nat → List Nat → Option (List Nat))
    (writeOk : Nat → Bool) (base hashBytes : List Nat) (size : Int)
    (s : List Nat) (written : Int) (acc : List Nat) (ctr wIdx : Nat)
    (h : size ≤ written) :
    recvLoop openFn writeOk base hashBytes size s written acc ctr wIdx =
      ⟨acc, written, ctr, s, none⟩ := by
  unfold recvLoop
  show recvLoopAux openFn writeOk base hashBytes size (s.length + 1) s written acc ctr wIdx = _
  simp only [recvLoopAux]
  rw [if_neg (by omega)]

theorem recvLoop_short (openFn : List Nat → List Nat → List Nat → Option (List Nat))
    (writeOk : Nat → Bool) (base hashBytes : List Nat) (size : Int)
    (s : List Nat) (written : Int) (acc : List Nat) (ctr wIdx : Nat)
    (h : written < size) (hs : s.length < 4) :
    recvLoop openFn writeOk base hashBytes size s written acc ctr wIdx =
      ⟨acc, written, ctr, s, some .readChunkLen⟩ := by
  unfold recvLoop
  show recvLoopAux openFn writeOk base hashBytes size (s.length + 1) s written acc ctr wIdx = _
  simp only [recvLoopAux]
  rw [if_pos h, if_pos hs, if_neg (by omega)]

theorem recvLoopAux_exit (openFn : List Nat → List Nat → List Nat → Option (List Nat))
    (writeOk : Nat → Bool) (base hashBytes : List Nat) (size : Int) :
    ∀ fuel (s : List Nat) (written : Int) (acc : List Nat) (ctr wIdx : Nat),
      (recvLoopAux openFn writeOk base hashBytes size fuel s written acc ctr wIdx).err = none →
      size ≤ (recvLoopAux openFn writeOk base hashBytes size fuel s written acc ctr wIdx).written := by
  intro fuel
  induction fuel with
  | zero => intro s written acc ctr wIdx h; exact absurd h (by simp [recvLoopAux])
  | succ f ih =>
    intro s written acc ctr wIdx h
    revert h
    simp only [recvLoopAux]
    by_cases h1 : written < size
    · simp only [if_pos h1]
      by_cases h2 : s.length < 4
      · simp only [if_pos h2]
        by_cases h3 : s.length = 0 ∧ written = size
        · simp only [if_pos h3]
          intro _
          omega
        · simp only [if_neg h3]
          intro h
          simp at h
      · simp only [if_neg h2]
        by_cases h3 : (s.drop 4).length < be32val (s.take 4)
        · simp only [if_pos h3]
          intro h
          simp at h
        · simp only [if_neg h3]
          cases hof : openFn (receiverNonceFor base ctr)
              ((s.drop 4).take (be32val (s.take 4))) hashBytes with
          | none => intro h; simp at h
          | some pt =>
            by_cases h4 : writeOk wIdx = true
            · simp only [if_pos h4]
              exact ih _ _ _ _ _
            · simp only [if_neg h4]
              intro h
              simp at h
    · simp only [if_neg h1]
      intro _
      omega

theorem recvLoop_exit (openFn : List Nat → List Nat → List Nat → Option (List Nat))
    (writeOk : Nat → Bool) (base hashBytes : List Nat) (size : Int)
    (s : List Nat) (written : Int) (acc : List Nat) (ctr wIdx : Nat)
    (h : (recvLoop openFn writeOk base hashBytes size s written acc ctr wIdx).err = none) :
    size ≤ (recvLoop openFn writeOk base hashBytes size s written acc ctr wIdx).written :=
  recvLoopAux_exit openFn writeOk base hashBytes size (s.length + 1) s written acc ctr wIdx h

theorem recvLoopAux_step (openFn : List Nat → List Nat → List Nat → Option (List Nat))
    (writeOk : Nat → Bool) (base hb : List Nat) (size : Int)
    (f : Nat) (s : List Nat) (w : Int) (acc : List Nat) (ctr wIdx : Nat)
    (ct rest2 pt : List Nat)
    (hs : s = be32 ct.length ++ (ct ++ rest2))
    (hlt : ct.length < 4294967296)
    (hw : w < size)
    (hopen : openFn (receiverNonceFor base ctr) ct hb = some pt)
    (hwok : writeOk wIdx = true) :
    recvLoopAux openFn writeOk base hb size (f + 1) s w acc ctr wIdx =
      recvLoopAux openFn writeOk base hb size f rest2 (w + (pt.length : Int))
        (acc ++ pt) ((ctr + 1) % 4294967296) (wIdx + 1) := by
  subst hs
  simp only [recvLoopAux]
  rw [if_pos hw]
  rw [if_neg (by simp only [List.length_append, be32_length]; omega)]
  rw [take_append_of_length (be32 ct.length) _ 4 (be32_length _),
      drop_append_of_length (be32 ct.length) _ 4 (be32_length _),
      be32val_of_lt hlt]
  rw [if_neg (by simp only [List.length_append]; omega)]
  rw [take_append_of_length ct rest2 ct.length rfl,
      drop_append_of_length ct rest2 ct.length rfl]
  rw [hopen]
  show (if writeOk wIdx = true then _ else _) = _
  rw [if_pos hwok]

theorem recvLoopAux_chunks (openFn : List Nat → List Nat → List Nat → Option (List Nat))
    (sealFn : List Nat → List Nat → List Nat → List Nat)
    (writeOk : Nat → Bool) (base hb : List Nat) (size : Int)
    (hw : ∀ i, writeOk i = true)
    (hopen : ∀ nonce pt, openFn nonce (sealFn nonce pt hb) hb = some pt)
    (hseal : ∀ nonce pt aad, (sealFn nonce pt aad).length = pt.length + 16) :
    ∀ (cs : List (List Nat)) (fuel : Nat) (extra : List Nat) (w : Int)
      (acc : List Nat) (ctr wIdx : Nat),
      (∀ c ∈ cs, c ≠ [] ∧ c.length + 16 < 4294967296) →
      size = w + (cs.flatten.length : Int) →
      ((chunkFrames sealFn base hb ctr cs).flatten ++ extra).length < fuel →
      ∃ ctr2, recvLoopAux openFn writeOk base hb size fuel
          ((chunkFrames sealFn base hb ctr cs).flatten ++ extra) w acc ctr wIdx =
        ⟨acc ++ cs.flatten, size, ctr2, extra, none⟩ := by
  intro cs
  induction cs with
  | nil =>
    intro fuel extra w acc ctr wIdx _ hsize hfuel
    cases fuel with
    | zero => exact absurd hfuel (Nat.not_lt_zero _)
    | succ f =>
      simp only [chunkFrames, List.flatten_nil, List.nil_append] at hfuel ⊢
      simp only [List.flatten_nil, List.length_nil, Nat.cast_zero, add_zero] at hsize
      refine ⟨ctr, ?_⟩
      simp only [recvLoopAux]
      rw [if_neg (by omega)]
      simp only [List.append_nil]
      rw [hsize]
  | cons c cs ih =>
    intro fuel extra w acc ctr wIdx hcs hsize hfuel
    have hc := hcs c (List.mem_cons_self c cs)
    have hcs2 : ∀ x ∈ cs, x ≠ [] ∧ x.length + 16 < 4294967296 :=
      fun x hx => hcs x (List.mem_cons_of_mem c hx)
    have hctlen : (sealFn (senderNonceFor base ctr) c hb).length = c.length + 16 :=
      hseal _ _ _
    have hstream : (chunkFrames sealFn base hb ctr (c :: cs)).flatten ++ extra
        = be32 (sealFn (senderNonceFor base ctr) c hb).length ++
          ((sealFn (senderNonceFor base ctr) c hb) ++
            ((chunkFrames sealFn base hb ((ctr + 1) % 4294967296) cs).flatten ++ extra)) := by
      simp only [chunkFrames, List.flatten_cons, frameBytes, List.append_assoc]
    cases fuel with
    | zero => exact absurd hfuel (Nat.not_lt_zero _)
    | succ f =>
      have hclen : 1 ≤ c.length := by
        rcases c with _ | ⟨x, xs⟩
        · exact absurd rfl hc.1
        · simp
      have hwlt : w < size := by
        rw [hsize]
        simp only [List.flatten_cons, List.length_append]
        push_cast
        omega
      rw [hstream]
      rw [recvLoopAux_step openFn writeOk base hb size f _ w acc ctr wIdx
            (sealFn (senderNonceFor base ctr) c hb)
            ((chunkFrames sealFn base hb ((ctr + 1) % 4294967296) cs).flatten ++ extra)
            c rfl (by omega) hwlt
            (by rw [receiverNonceFor_eq_senderNonceFor]; exact hopen _ _)
            (hw wIdx)]
      have hsize2 : size = (w + (c.length : Int)) + (cs.flatten.length : Int) := by
        rw [hsize]
        simp only [List.flatten_cons, List.length_append]
        push_cast
        ring
      have hfuel2 : ((chunkFrames sealFn base hb ((ctr + 1) % 4294967296) cs).flatten
          ++ extra).length < f := by
        rw [hstream] at hfuel
        simp only [List.length_append, be32_length] at hfuel
        simp only [List.length_append]
        omega
      obtain ⟨ctr2, hrec⟩ := ih f extra (w + (c.length : Int)) (acc ++ c)
        ((ctr + 1) % 4294967296) (wIdx + 1) hcs2 hsize2 hfuel2
      refine ⟨ctr2, ?_⟩
      rw [hrec]
      simp only [List.flatten_cons, List.append_assoc]

theorem recvLoop_chunks (openFn : List Nat → List Nat → List Nat → Option (List Nat))
    (sealFn : List Nat → List Nat → List Nat → List Nat)
    (writeOk : Nat → Bool) (base hb : List Nat) (size : Int)
    (hw : ∀ i, writeOk i = true)
    (hopen : ∀ nonce pt, openFn nonce (sealFn nonce pt hb) hb = some pt)
    (hseal : ∀ nonce pt aad, (sealFn nonce pt aad).length = pt.length + 16)
    (cs : List (List Nat)) (extra : List Nat) (ctr : Nat)
    (hcs : ∀ c ∈ cs, c ≠ [] ∧ c.length + 16 < 4294967296)
    (hsize : size = (cs.flatten.length : Int)) :
    ∃ ctr2, recvLoop openFn writeOk base hb size
        ((chunkFrames sealFn base hb ctr cs).flatten ++ extra) 0 [] ctr 0 =
      ⟨cs.flatten, size, ctr2, extra, none⟩ := by
  unfold recvLoop
  obtain ⟨ctr2, h⟩ := recvLoopAux_chunks openFn sealFn writeOk base hb size hw hopen hseal
    cs (((chunkFrames sealFn base hb ctr cs).flatten ++ extra).length + 1) extra 0 [] ctr 0
    hcs (by rw [hsize]; ring) (by omega)
  exact ⟨ctr2, by rw [h]; simp⟩

/-! ### Path lemmas -/

theorem splitSlash_append (xs ys : List Char) (h : '/' ∉ xs) :
    splitSlash (xs ++ '/' :: ys) = xs :: splitSlash ys := by
  induction xs with
  | nil => simp [splitSlash]
  | cons c cs ih =>
    have hc : c ≠ '/' := fun hc => h (by simp [hc])
    have hcs : '/' ∉ cs := fun hm => h (List.mem_cons_of_mem c hm)
    simp only [List.cons_append, splitSlash, if_neg hc]
    rw [show cs.append ('/' :: ys) = cs ++ '/' :: ys from rfl, ih hcs]

theorem mem_pathComps_ne_nil (l : List Char) : ∀ c ∈ pathComps l, c ≠ [] := by
  intro c hc
  have h2 := (List.mem_filter.mp hc).2
  intro hnil
  subst hnil
  simp at h2

theorem pathComps_cons_of (xs ys : List Char) (h : '/' ∉ xs) (hne : xs ≠ [])
    (hdot : xs ≠ ['.']) :
    pathComps (xs ++ '/' :: ys) = xs :: pathComps ys := by
  unfold pathComps
  rw [splitSlash_append xs ys h]
  rw [List.filter_cons_of_pos]
  simp only [Bool.and_eq_true, Bool.not_eq_eq_eq_not, Bool.not_true, beq_eq_false_iff_ne]
  exact ⟨hne, hdot⟩

theorem resolveComps_no_dd (abs : Bool) :
    ∀ (cs : List (List Char)), ['.', '.'] ∉ cs →
      ∀ st, resolveComps abs st cs = st.reverse ++ cs := by
  intro cs
  induction cs with
  | nil => intro _ st; simp [resolveComps]
  | cons c cs ih =>
    intro h st
    have hc : c ≠ ['.', '.'] := fun hc => h (by simp [hc])
    have hcs : ['.', '.'] ∉ cs := fun hm => h (List.mem_cons_of_mem c hm)
    have hbeq : (c == ['.', '.']) = false := by simpa using hc
    simp only [resolveComps, hbeq, Bool.false_eq_true, if_false]
    rw [ih hcs (c :: st)]
    simp

theorem joinComps_cons (c : List Char) (cs : List (List Char)) (h : cs ≠ []) :
    joinComps (c :: cs) = c ++ '/' :: joinComps cs := by
  cases cs with
  | nil => exact absurd rfl h
  | cons d ds => rfl

theorem joinComps_ne_nil (cs : List (List Char)) (h : cs ≠ [])
    (hmem : ∀ c ∈ cs, c ≠ []) : joinComps cs ≠ [] := by
  cases cs with
  | nil => exact absurd rfl h
  | cons c cs2 =>
    cases cs2 with
    | nil => exact hmem c (by simp)
    | cons d ds =>
      rw [joinComps_cons c (d :: ds) (by simp)]
      rcases c with _ | ⟨x, xs⟩ <;> simp

theorem hasPrefixChars_append_self : ∀ (a c : List Char), hasPrefixChars a (a ++ c) = true := by
  intro a
  induction a with
  | nil => intro c; rfl
  | cons x xs ih =>
    intro c
    simp only [List.cons_append, hasPrefixChars, beq_self_eq_true, Bool.true_and]
    rw [show xs.append c = xs ++ c from rfl, ih]

theorem outPathOf_safe (name : String) (h : safeName name) :
    (outPathOf name).data =
      "public".data ++ '/' :: joinComps (pathComps name.data) := by
  obtain ⟨h1, h2⟩ := h
  have hname : name ≠ "" := by
    intro he
    subst he
    exact h1 rfl
  unfold outPathOf joinPath PublicDir
  rw [if_neg hname]
  show cleanChars ("public".data ++ '/' :: name.data) = _
  rw [show ("public".data ++ '/' :: name.data =
    'p' :: 'u' :: 'b' :: 'l' :: 'i' :: 'c' :: '/' :: name.data) from rfl]
  show (let abs : Bool := 'p' == '/'
        let rs := resolveComps abs [] (pathComps ('p' :: 'u' :: 'b' :: 'l' :: 'i' :: 'c' :: '/' :: name.data))
        if abs then '/' :: joinComps rs
        else if rs = [] then ['.'] else joinComps rs) = _
  rw [show ('p' == '/') = false from rfl]
  simp only [Bool.false_eq_true, if_false]
  rw [show ('p' :: 'u' :: 'b' :: 'l' :: 'i' :: 'c' :: '/' :: name.data) =
    "public".data ++ '/' :: name.data from rfl]
  rw [pathComps_cons_of ("public".data) name.data (by decide) (by decide) (by decide)]
  rw [resolveComps_no_dd false ("public".data :: pathComps name.data)
    (by
      intro hmem
      rcases List.mem_cons.mp hmem with he | he
      · exact absurd he.symm (by decide)
      · exact h2 he) []]
  simp only [List.reverse_nil, List.nil_append]
  rw [if_neg (by simp)]
  exact joinComps_cons _ _ h1

theorem string_append_data (s t : String) : (s ++ t).data = s.data ++ t.data := rfl

theorem withinPublic_outPath (name : String) (h : safeName name) :
    withinPublic (outPathOf name) = true := by
  unfold withinPublic
  rw [outPathOf_safe name h]
  have hjc : joinComps (pathComps name.data) ≠ [] :=
    joinComps_ne_nil _ h.1 (mem_pathComps_ne_nil _)
  rw [show ("public".data ++ '/' :: joinComps (pathComps name.data) =
    "public/".data ++ joinComps (pathComps name.data)) from rfl]
  rw [hasPrefixChars_append_self]
  simp only [Bool.true_and, decide_eq_true_eq]
  rw [List.length_append]
  obtain ⟨x, xs, hxs⟩ := List.exists_cons_of_ne_nil hjc
  rw [hxs]
  simp [show ("public/".data).length = 7 from rfl]

theorem withinPublic_tmpPath (name : String) (h : safeName name) :
    withinPublic (tmpPathOf name) = true := by
  unfold withinPublic tmpPathOf
  rw [string_append_data, outPathOf_safe name h]
  rw [show ("public".data ++ '/' :: joinComps (pathComps name.data)) ++ ".part".data =
    "public/".data ++ (joinComps (pathComps name.data) ++ ".part".data) from by
      simp [show ("public/".data = "public".data ++ ['/']) from rfl]]
  rw [hasPrefixChars_append_self]
  simp only [Bool.true_and, decide_eq_true_eq]
  rw [List.length_append, List.length_append]
  simp [show ("public/".data).length = 7 from rfl, show (".part".data).length = 5 from rfl]

/-! ### Stream adapter lemmas -/

theorem dcReadAux_none_iff (n : Nat) :
    ∀ (msgs : List (List Nat)) (cur : List Nat),
      dcReadAux n cur msgs = none ↔ cur ++ msgs.flatten = [] := by
  intro msgs
  induction msgs with
  | nil =>
    intro cur
    cases cur with
    | nil => simp [dcReadAux]
    | cons c cs => simp [dcReadAux]
  | cons m rest ih =>
    intro cur
    cases cur with
    | nil =>
      show dcReadAux n m rest = none ↔ _
      rw [ih m]
      simp
    | cons c cs => simp [dcReadAux]

theorem dcRead_none_iff (st : DCState) (n : Nat) :
    dcRead st n = none ↔ dcDrain st = [] :=
  dcReadAux_none_iff n st.msgs st.cur

theorem dcReadAux_drain (n : Nat) :
    ∀ (msgs : List (List Nat)) (cur r : List Nat) (st2 : DCState),
      dcReadAux n cur msgs = some (r, st2) →
      r ++ dcDrain st2 = cur ++ msgs.flatten ∧ (0 < n → r ≠ []) := by
  intro msgs
  induction msgs with
  | nil =>
    intro cur r st2 h
    cases cur with
    | nil => exact absurd h (by simp [dcReadAux])
    | cons c cs =>
      simp only [dcReadAux, Option.some.injEq, Prod.mk.injEq] at h
      obtain ⟨hr, hst⟩ := h
      subst hr
      subst hst
      constructor
      · show (c :: cs).take n ++ ((c :: cs).drop n ++ [].flatten) = _
        simp [List.take_append_drop]
      · intro hn
        cases n with
        | zero => omega
        | succ m => simp
  | cons m rest ih =>
    intro cur r st2 h
    cases cur with
    | nil =>
      have h2 := ih m r st2 h
      constructor
      · rw [h2.1]; simp
      · exact h2.2
    | cons c cs =>
      simp only [dcReadAux, Option.some.injEq, Prod.mk.injEq] at h
      obtain ⟨hr, hst⟩ := h
      subst hr
      subst hst
      constructor
      · show (c :: cs).take n ++ ((c :: cs).drop n ++ (m :: rest).flatten) = _
        rw [← List.append_assoc, List.take_append_drop]
      · intro hn
        cases n with
        | zero => omega
        | succ k => simp

theorem dcRead_drain (st : DCState) (n : Nat) (r : List Nat) (st2 : DCState)
    (h : dcRead st n = some (r, st2)) : r ++ dcDrain st2 = dcDrain st :=
  (dcReadAux_drain n st.msgs st.cur r st2 h).1

theorem dcReadAux_one :
    ∀ (msgs : List (List Nat)) (cur r : List Nat) (st2 : DCState),
      dcReadAux 1 cur msgs = some (r, st2) →
      ∃ b, r = [b] ∧ b :: dcDrain st2 = cur ++ msgs.flatten := by
  intro msgs
  induction msgs with
  | nil =>
    intro cur r st2 h
    cases cur with
    | nil => exact absurd h (by simp [dcReadAux])
    | cons c cs =>
      simp only [dcReadAux, Option.some.injEq, Prod.mk.injEq] at h
      obtain ⟨hr, hst⟩ := h
      subst hr
      subst hst
      exact ⟨c, by simp, by simp [dcDrain]⟩
  | cons m rest ih =>
    intro cur r st2 h
    cases cur with
    | nil =>
      obtain ⟨b, hb, hd⟩ := ih m r st2 h
      exact ⟨b, hb, by rw [hd]; simp⟩
    | cons c cs =>
      simp only [dcReadAux, Option.some.injEq, Prod.mk.injEq] at h
      obtain ⟨hr, hst⟩ := h
      subst hr
      subst hst
      exact ⟨c, by simp, by simp [dcDrain]⟩

theorem dcWrite_msgs (st : DCState) (p : List Nat) :
    (dcWrite st p).msgs = st.msgs ++ chunksOf 32768 p := rfl

theorem dcDrain_write (st : DCState) (p : List Nat) :
    dcDrain (dcWrite st p) = dcDrain st ++ p := by
  show st.cur ++ (st.msgs ++ chunksOf 32768 p).flatten = (st.cur ++ st.msgs.flatten) ++ p
  rw [List.flatten_append, chunksOf_flatten 32768 (by norm_num) p, List.append_assoc]

theorem dcDrain_writes (st : DCState) (ws : List (List Nat)) :
    dcDrain (dcWrites st ws) = dcDrain st ++ ws.flatten := by
  induction ws generalizing st with
  | nil => simp [dcWrites]
  | cons w ws ih =>
    show dcDrain (dcWrites (dcWrite st w) ws) = _
    rw [ih, dcDrain_write]
    simp

theorem dcReadSeq_front :
    ∀ (sizes : List Nat) (st : DCState),
      ∃ rest, dcReadSeq st sizes ++ rest = dcDrain st := by
  intro sizes
  induction sizes with
  | nil => intro st; exact ⟨dcDrain st, by simp [dcReadSeq]⟩
  | cons n rest ih =>
    intro st
    cases h : dcRead st n with
    | none => exact ⟨dcDrain st, by simp [dcReadSeq, h]⟩
    | some p =>
      obtain ⟨r, st1⟩ := p
      obtain ⟨rest2, h2⟩ := ih st1
      refine ⟨rest2, ?_⟩
      simp only [dcReadSeq, h]
      rw [List.append_assoc, h2]
      exact dcRead_drain st n r st1 h

theorem dcReadSeq_ones :
    ∀ (k : Nat) (st : DCState),
      dcReadSeq st (List.replicate k 1) = (dcDrain st).take k := by
  intro k
  induction k with
  | zero => intro st; simp [dcReadSeq]
  | succ k ih =>
    intro st
    rw [List.replicate_succ]
    show dcReadSeq st (1 :: List.replicate k 1) = _
    cases h : dcRead st 1 with
    | none =>
      rw [(dcRead_none_iff st 1).mp h]
      simp [dcReadSeq, h]
    | some p =>
      obtain ⟨r, st1⟩ := p
      obtain ⟨b, hb, hd⟩ := dcReadAux_one st.msgs st.cur r st1 h
      have hd2 : b :: dcDrain st1 = dcDrain st := hd
      simp only [dcReadSeq, h]
      rw [hb, ih st1, ← hd2]
      rfl

/-! ### receiveBody characterization -/

theorem receiveBody_shape (openFn : List Nat → List Nat → List Nat → Option (List Nat))
    (jsonDec : List Nat → Option Manifest) (wOk : Nat → Bool)
    (base s : List Nat) :
    ∀ o, o = receiveBody openFn jsonDec wOk base s →
      (o.man = none ∧ o.tmp = none ∧ o.final = none ∧ o.ret = none ∧
        ∃ e, o.err = some e ∧
          (e = .readManifestLen ∨ e = .readManifest ∨ e = .decryptManifest ∨
           e = .decodeManifest)) ∨
      (∃ man, o.man = some man ∧
        ((o.tmp = some (tmpPathOf man.name, []) ∧ o.final = none ∧
            o.err = some .decodeHash ∧ o.ret = none ∧ hexDecode man.hash = none) ∨
         (∃ hb r, hexDecode man.hash = some hb ∧
            r = recvLoop openFn wOk base hb man.size
              ((s.drop 4).drop (be32val (s.take 4))) 0 [] 1 0 ∧
            ((∃ e, r.err = some e ∧ o.tmp = some (tmpPathOf man.name, r.acc) ∧
                o.final = none ∧ o.err = some e ∧ o.ret = none) ∨
             (r.err = none ∧ hexEncode (sha256 r.acc) ≠ man.hash ∧
                o.tmp = none ∧ o.final = none ∧
                o.err = some (.hashMismatch (hexEncode (sha256 r.acc)) man.hash) ∧
                o.ret = none) ∨
             (r.err = none ∧ hexEncode (sha256 r.acc) = man.hash ∧
                o.tmp = none ∧ o.final = some (outPathOf man.name, r.acc) ∧
                o.err = none ∧ o.ret = some (man, outPathOf man.name)))))) := by
  intro o ho
  subst ho
  simp only [receiveBody]
  split
  · exact Or.inl ⟨rfl, rfl, rfl, rfl, .readManifestLen, rfl, by simp⟩
  · split
    · exact Or.inl ⟨rfl, rfl, rfl, rfl, .readManifest, rfl, by simp⟩
    · split
      · exact Or.inl ⟨rfl, rfl, rfl, rfl, .decryptManifest, rfl, by simp⟩
      · rename_i mbytes _
        split
        · exact Or.inl ⟨rfl, rfl, rfl, rfl, .decodeManifest, rfl, by simp⟩
        · rename_i man _
          split
          · rename_i hnone
            exact Or.inr ⟨man, rfl, Or.inl ⟨rfl, rfl, rfl, rfl, hnone⟩⟩
          · rename_i hb hsome
            split
            · rename_i e herr
              exact Or.inr ⟨man, rfl, Or.inr ⟨hb, _, hsome, rfl,
                Or.inl ⟨e, herr, rfl, rfl, rfl, rfl⟩⟩⟩
            · rename_i herr
              split
              · rename_i hne
                exact Or.inr ⟨man, rfl, Or.inr ⟨hb, _, hsome, rfl,
                  Or.inr (Or.inl ⟨herr, hne, rfl, rfl, rfl, rfl⟩)⟩⟩
              · rename_i hne
                exact Or.inr ⟨man, rfl, Or.inr ⟨hb, _, hsome, rfl,
                  Or.inr (Or.inr ⟨herr, by simpa using hne, rfl, rfl, rfl, rfl⟩)⟩⟩

theorem recvLoopAux_no_mismatch (openFn : List Nat → List Nat → List Nat → Option (List Nat))
    (writeOk : Nat → Bool) (base hashBytes : List Nat) (size : Int) :
    ∀ fuel (s : List Nat) (written : Int) (acc : List Nat) (ctr wIdx : Nat) comp exp,
      (recvLoopAux openFn writeOk base hashBytes size fuel s written acc ctr wIdx).err ≠
        some (.hashMismatch comp exp) := by
  intro fuel
  induction fuel with
  | zero => intro s written acc ctr wIdx comp exp; simp [recvLoopAux]
  | succ f ih =>
    intro s written acc ctr wIdx comp exp
    simp only [recvLoopAux]
    by_cases h1 : written < size
    · rw [if_pos h1]
      by_cases h2 : s.length < 4
      · rw [if_pos h2]
        by_cases h3 : s.length = 0 ∧ written = size
        · rw [if_pos h3]; simp
        · rw [if_neg h3]; simp
      · rw [if_neg h2]
        by_cases h3 : (s.drop 4).length < be32val (s.take 4)
        · rw [if_pos h3]; simp
        · rw [if_neg h3]
          cases hof : openFn (receiverNonceFor base ctr)
              ((s.drop 4).take (be32val (s.take 4))) hashBytes with
          | none => simp
          | some pt =>
            by_cases h4 : writeOk wIdx = true
            · simp only [if_pos h4]
              exact ih _ _ _ _ _ comp exp
            · simp only [if_neg h4]
              simp
    · rw [if_neg h1]; simp

/-! ### Claims -/

/-- C1 (amended: provided the session performs at most `2^32` operations,
i.e. `N + 1 ≤ 2^32`): the `i`-th seal/open operation of a session uses the
12-byte nonce equal to the base with its last 4 bytes replaced by the
big-endian encoding of `i`; the counter starts at 0 and increments by one
per operation, the `N + 1` derived nonces are pairwise distinct, their
embedded counters are `0, 1, …, N` in strictly increasing order, and the
sender and receiver `nonceFor` are the same function. -/
theorem claim_C1 (base : List Nat) (N : Nat) (hb : base.length = 12)
    (hN : N + 1 ≤ 4294967296) :
    ((Session.start base).runOps (N + 1)).1 = sessionNonces base (N + 1) ∧
    sessionNonces base (N + 1) =
      (List.range (N + 1)).map (fun i => base.take 8 ++ be32 i) ∧
    (sessionNonces base (N + 1)).Nodup ∧
    (sessionNonces base (N + 1)).map (fun n => be32val (n.drop 8)) =
      List.range (N + 1) ∧
    (∀ b c, receiverNonceFor b c = senderNonceFor b c) :=
  ⟨runOps_start base (N + 1), sessionNonces_eq base hb (N + 1) hN,
   sessionNonces_nodup base hb (N + 1) hN, sessionNonces_counters base hb (N + 1) hN,
   receiverNonceFor_eq_senderNonceFor⟩

/-- Witness for C1 at a concrete 12-byte base and `N = 1`. -/
theorem claim_C1_witness :
    ((Session.start (List.replicate 12 0)).runOps 2).1 =
      sessionNonces (List.replicate 12 0) 2 ∧
    sessionNonces (List.replicate 12 0) 2 =
      (List.range 2).map (fun i => (List.replicate 12 0).take 8 ++ be32 i) ∧
    (sessionNonces (List.replicate 12 0) 2).Nodup ∧
    (sessionNonces (List.replicate 12 0) 2).map (fun n => be32val (n.drop 8)) =
      List.range 2 ∧
    (∀ b c, receiverNonceFor b c = senderNonceFor b c) :=
  claim_C1 (List.replicate 12 0) 1 (by decide) (by norm_num)

/-- C1 counterexample: with the 32-bit counter, operation `2^32` reuses the
nonce of operation `0`, so for `N = 2^32` the `N + 1` derived nonces are not
pairwise distinct as the claim states. -/
theorem claim_C1_counterexample :
    nonceAt (List.replicate 12 0) 0 = nonceAt (List.replicate 12 0) 4294967296 ∧
    (0 : Nat) ≠ 4294967296 ∧
    ¬ (sessionNonces (List.replicate 12 0) 4294967297).Nodup := by
  refine ⟨by decide, by decide, ?_⟩
  intro h
  unfold sessionNonces at h
  have h2 := List.inj_on_of_nodup_map h
    (show (0 : Nat) ∈ List.range 4294967297 from List.mem_range.mpr (by norm_num))
    (show (4294967296 : Nat) ∈ List.range 4294967297 from List.mem_range.mpr (by norm_num))
    (by decide)
  exact absurd h2 (by norm_num)

/-- C5 (amended): the chunk loop of the receiver runs exactly until the total of
decrypted plaintext reaches **at least** the declared size: a clean exit
implies the total reached the size; once the total is reached the loop
returns immediately without reading anything further (trailing frames are
ignored, not a framing error); and a stream with fewer than 4 remaining
bytes before the total is reached is a fatal error (the `io.EOF` break
requires `written == man.Size`, which never holds inside the loop). -/
theorem claim_C5 (openFn : List Nat → List Nat → List Nat → Option (List Nat))
    (wOk : Nat → Bool) (base hb : List Nat) (size : Int) (s : List Nat)
    (w : Int) (acc : List Nat) (ctr wIdx : Nat) :
    ((recvLoop openFn wOk base hb size s w acc ctr wIdx).err = none →
       size ≤ (recvLoop openFn wOk base hb size s w acc ctr wIdx).written) ∧
    (size ≤ w →
       recvLoop openFn wOk base hb size s w acc ctr wIdx = ⟨acc, w, ctr, s, none⟩) ∧
    (w < size → s.length < 4 →
       recvLoop openFn wOk base hb size s w acc ctr wIdx =
         ⟨acc, w, ctr, s, some .readChunkLen⟩) :=
  ⟨recvLoop_exit openFn wOk base hb size s w acc ctr wIdx,
   recvLoop_immediate openFn wOk base hb size s w acc ctr wIdx,
   recvLoop_short openFn wOk base hb size s w acc ctr wIdx⟩

/-- Witness for C5: a stream that ends before the declared size is a fatal
error. -/
theorem claim_C5_witness :
    recvLoop (fun _ _ _ => none) (fun _ => true) (List.replicate 12 0) [] 1 [] 0 [] 1 0 =
      ⟨[], 0, 1, [], some .readChunkLen⟩ :=
  (claim_C5 (fun _ _ _ => none) (fun _ => true) (List.replicate 12 0) [] 1 [] 0 [] 1 0).2.2
    (by norm_num) (by simp)

/-- C5 counterexample: a chunk that overshoots the declared size (declared
size 1, one 2-byte chunk whose hash matches the manifest) is consumed and
the transfer finalizes with no error at all — the loop does not read
"exactly until the total equals the declared size", and reading past that
point is not a fatal framing error. -/
theorem claim_C5_counterexample :
    (receiveBody (fun _ ct _ => some ct)
        (fun _ => some ⟨"f", 1, "96a296d224f285c67bee93c30f8a309157f0daa35dc5b87e410b78630a09cfc7"⟩)
        (fun _ => true) (List.replicate 12 0)
        [0, 0, 0, 0, 0, 0, 0, 2, 0, 0]).man =
      some ⟨"f", 1, "96a296d224f285c67bee93c30f8a309157f0daa35dc5b87e410b78630a09cfc7"⟩ ∧
    (receiveBody (fun _ ct _ => some ct)
        (fun _ => some ⟨"f", 1, "96a296d224f285c67bee93c30f8a309157f0daa35dc5b87e410b78630a09cfc7"⟩)
        (fun _ => true) (List.replicate 12 0)
        [0, 0, 0, 0, 0, 0, 0, 2, 0, 0]).err = none ∧
    (receiveBody (fun _ ct _ => some ct)
        (fun _ => some ⟨"f", 1, "96a296d224f285c67bee93c30f8a309157f0daa35dc5b87e410b78630a09cfc7"⟩)
        (fun _ => true) (List.replicate 12 0)
        [0, 0, 0, 0, 0, 0, 0, 2, 0, 0]).final = some ("public/f", [0, 0]) := by
  refine ⟨?_, ?_, ?_⟩ <;> decide

/-- C6: the sender emits one chunk frame per non-empty block of at most
`1,048,576` bytes and never an empty chunk frame: the number of frames is
`⌈length / ChunkSize⌉`; a zero-byte file yields zero frames, a file of
exactly `ChunkSize` bytes exactly one, and one of `ChunkSize + 1` bytes
exactly two. -/
theorem claim_C6 (data : List Nat)
    (sealFn : List Nat → List Nat → List Nat → List Nat)
    (base hb : List Nat) (ctr : Nat) :
    (∀ c ∈ chunksOf ChunkSize data, c ≠ [] ∧ c.length ≤ ChunkSize) ∧
    (chunkFrames sealFn base hb ctr (chunksOf ChunkSize data)).length =
      (data.length + ChunkSize - 1) / ChunkSize ∧
    (data.length = 0 → chunkFrames sealFn base hb ctr (chunksOf ChunkSize data) = []) ∧
    (data.length = 1048576 →
      (chunkFrames sealFn base hb ctr (chunksOf ChunkSize data)).length = 1) ∧
    (data.length = 1048577 →
      (chunkFrames sealFn base hb ctr (chunksOf ChunkSize data)).length = 2) := by
  have hpos : 0 < ChunkSize := by norm_num [ChunkSize]
  have hflen : ∀ ctr2 (cs : List (List Nat)),
      (chunkFrames sealFn base hb ctr2 cs).length = cs.length := by
    intro ctr2 cs
    induction cs generalizing ctr2 with
    | nil => rfl
    | cons c cs ih => simp [chunkFrames, ih]
  refine ⟨mem_chunksOf ChunkSize hpos data, ?_, ?_, ?_, ?_⟩
  · rw [hflen, chunksOf_length ChunkSize hpos]
  · intro h0
    have : data = [] := List.eq_nil_of_length_eq_zero h0
    subst this
    rw [chunksOf_nil]
    rfl
  · intro h1
    rw [hflen, chunksOf_length ChunkSize hpos, h1]
    norm_num [ChunkSize]
  · intro h2
    rw [hflen, chunksOf_length ChunkSize hpos, h2]
    norm_num [ChunkSize]

/-- Witness for C6 at a file of `ChunkSize + 1` zero bytes: two frames. -/
theorem claim_C6_witness :
    (chunkFrames (fun _ _ _ => []) [] [] 0
        (chunksOf ChunkSize (List.replicate 1048577 0))).length = 2 :=
  (claim_C6 (List.replicate 1048577 0) (fun _ _ _ => []) [] [] 0).2.2.2.2
    (by rw [List.length_replicate])

/-- C8: the stream adapter `Write` splits each payload into fragments of
at most 32 KiB handed to the channel in order and losing nothing; a reader
draining the queue (splitting messages across reads as needed) observes
exactly the concatenation of all written bytes, regardless of the
fragmentation boundaries (backpressure waits only delay sends and do not
affect the data). -/
theorem claim_C8 :
    (∀ st p, (dcWrite st p).msgs = st.msgs ++ chunksOf 32768 p ∧
       (chunksOf 32768 p).flatten = p ∧
       (∀ f ∈ chunksOf 32768 p, f ≠ [] ∧ f.length ≤ 32768)) ∧
    (∀ st ws, dcDrain (dcWrites st ws) = dcDrain st ++ ws.flatten) ∧
    (∀ st n r st2, dcRead st n = some (r, st2) → r ++ dcDrain st2 = dcDrain st) ∧
    (∀ st n, dcRead st n = none ↔ dcDrain st = []) ∧
    (∀ st sizes, ∃ rest, dcReadSeq st sizes ++ rest = dcDrain st) ∧
    (∀ ws k, dcReadSeq (dcWrites ⟨[], []⟩ ws) (List.replicate k 1) = ws.flatten.take k) := by
  have h32 : (0 : Nat) < 32768 := by norm_num
  refine ⟨?_, dcDrain_writes, ?_, dcRead_none_iff, ?_, ?_⟩
  · intro st p
    exact ⟨rfl, chunksOf_flatten 32768 h32 p, mem_chunksOf 32768 h32 p⟩
  · intro st n r st2 h
    exact dcRead_drain st n r st2 h
  · intro st sizes
    exact dcReadSeq_front sizes st
  · intro ws k
    rw [dcReadSeq_ones k, dcDrain_writes]
    rfl

/-- Witness for C8: one concrete read step hands back the queued bytes in
order. -/
theorem claim_C8_witness :
    [5] ++ dcDrain ⟨[], [[6]]⟩ = dcDrain ⟨[5], [[6]]⟩ :=
  claim_C8.2.2.1 ⟨[5], [[6]]⟩ 1 [5] ⟨[], [[6]]⟩ (by decide)
theorem recvLoop_no_mismatch (openFn : List Nat → List Nat → List Nat → Option (List Nat))
    (writeOk : Nat → Bool) (base hashBytes : List Nat) (size : Int)
    (s : List Nat) (written : Int) (acc : List Nat) (ctr wIdx : Nat)
    (comp exp : String) :
    (recvLoop openFn writeOk base hashBytes size s written acc ctr wIdx).err ≠
      some (.hashMismatch comp exp) :=
  recvLoopAux_no_mismatch openFn writeOk base hashBytes size (s.length + 1)
    s written acc ctr wIdx comp exp

theorem receiveBody_frame (openFn : List Nat → List Nat → List Nat → Option (List Nat))
    (jsonDec : List Nat → Option Manifest) (wOk : Nat → Bool)
    (base cman rest2 mbytes : List Nat) (man : Manifest)
    (hlt : cman.length < 4294967296)
    (hopen : openFn (receiverNonceFor base 0) cman manifestAAD = some mbytes)
    (hjson : jsonDec mbytes = some man) :
    receiveBody openFn jsonDec wOk base (be32 cman.length ++ (cman ++ rest2)) =
      (match hexDecode man.hash with
       | none => ⟨some man, some (tmpPathOf man.name, []), none, some .decodeHash, none⟩
       | some hashBytes =>
         recvFinish man (recvLoop openFn wOk base hashBytes man.size rest2 0 [] 1 0)) := by
  simp only [receiveBody]
  rw [if_neg (by simp only [List.length_append, be32_length]; omega)]
  rw [take_append_of_length (be32 cman.length) _ 4 (be32_length _),
      drop_append_of_length (be32 cman.length) _ 4 (be32_length _),
      be32val_of_lt hlt]
  rw [if_neg (by simp only [List.length_append]; omega)]
  rw [take_append_of_length cman rest2 cman.length rfl,
      drop_append_of_length cman rest2 cman.length rfl]
  split
  · rename_i heq
    rw [hopen] at heq
    simp at heq
  · rename_i mb2 heq
    rw [hopen] at heq
    injection heq with h2
    subst h2
    split
    · rename_i heq2
      rw [hjson] at heq2
      simp at heq2
    · rename_i man2 heq2
      rw [hjson] at heq2
      injection heq2 with h3
      subst h3
      rfl

/-- C4: the manifest frame is sealed/opened with associated data
`"manifest"` and every chunk frame with associated data equal to the raw
manifest-hash bytes, by sender and receiver alike. The round trip
certifies this: assuming only that `openFn` inverts `sealFn` at the two
associated-data values the sender uses (`manifestAAD` for the manifest at
counter 0, `sha256 data` for the chunks at counters 1, 2, …), the receiver
run on the frames written by the sender opens every frame and finalizes the exact file
contents. -/
theorem claim_C4 (openFn : List Nat → List Nat → List Nat → Option (List Nat))
    (sealFn : List Nat → List Nat → List Nat → List Nat)
    (jsonEnc : Manifest → List Nat) (jsonDec : List Nat → Option Manifest)
    (wOk : Nat → Bool) (base : List Nat) (name : String) (data : List Nat)
    (hseal : ∀ n pt aad, (sealFn n pt aad).length = pt.length + 16)
    (hopenM : ∀ n pt, openFn n (sealFn n pt manifestAAD) manifestAAD = some pt)
    (hopenC : ∀ n pt, openFn n (sealFn n pt (sha256 data)) (sha256 data) = some pt)
    (hjson : jsonDec (jsonEnc (buildManifest name data)) = some (buildManifest name data))
    (hjlen : (jsonEnc (buildManifest name data)).length + 16 < 4294967296)
    (hw : ∀ i, wOk i = true) :
    receiveBody openFn jsonDec wOk base
        (sendFrames sealFn base (jsonEnc (buildManifest name data)) (sha256 data) data) =
      ⟨some (buildManifest name data), none, some (outPathOf name, data), none,
        some (buildManifest name data, outPathOf name)⟩ := by
  have hform : sendFrames sealFn base (jsonEnc (buildManifest name data)) (sha256 data) data =
      be32 (sealFn (senderNonceFor base 0) (jsonEnc (buildManifest name data)) manifestAAD).length ++
        (sealFn (senderNonceFor base 0) (jsonEnc (buildManifest name data)) manifestAAD ++
          (chunkFrames sealFn base (sha256 data) 1 (chunksOf ChunkSize data)).flatten) := by
    simp [sendFrames, frameBytes, List.append_assoc]
  rw [hform]
  rw [receiveBody_frame openFn jsonDec wOk base _ _ (jsonEnc (buildManifest name data))
      (buildManifest name data)
      (by rw [hseal]; omega)
      (by rw [receiverNonceFor_eq_senderNonceFor]; exact hopenM _ _)
      hjson]
  split
  · rename_i hnone
    rw [hexDecode_buildManifest] at hnone
    simp at hnone
  · rename_i hb hsome
    rw [hexDecode_buildManifest] at hsome
    injection hsome with h2
    subst h2
    have hflat : (chunksOf ChunkSize data).flatten = data :=
      chunksOf_flatten ChunkSize (by norm_num [ChunkSize]) data
    obtain ⟨ctr2, hloop⟩ := recvLoop_chunks openFn sealFn wOk base (sha256 data)
      (buildManifest name data).size hw hopenC hseal (chunksOf ChunkSize data) [] 1
      (by
        intro c hc
        have hm := mem_chunksOf ChunkSize (by norm_num [ChunkSize]) data c hc
        refine ⟨hm.1, ?_⟩
        have := hm.2
        simp only [ChunkSize] at this
        omega)
      (by rw [hflat]; rfl)
    rw [List.append_nil] at hloop
    rw [hflat] at hloop
    rw [hloop]
    simp only [recvFinish]
    rw [if_neg (by simp [buildManifest])]
    rfl

/-- Witness for C4: a concrete invertible seal/open pair round-trips a
3-byte file. -/
theorem claim_C4_witness :
    receiveBody (fun _ ct _ => some (ct.take (ct.length - 16)))
        (fun _ => some (buildManifest ("a") [1, 2, 3])) (fun _ => true)
        (List.replicate 12 0)
        (sendFrames (fun _ pt _ => pt ++ List.replicate 16 0) (List.replicate 12 0)
          ((fun _ => [7]) (buildManifest ("a") [1, 2, 3])) (sha256 [1, 2, 3]) [1, 2, 3]) =
      ⟨some (buildManifest ("a") [1, 2, 3]), none, some (outPathOf ("a"), [1, 2, 3]), none,
        some (buildManifest ("a") [1, 2, 3], outPathOf ("a"))⟩ :=
  claim_C4 (fun _ ct _ => some (ct.take (ct.length - 16)))
    (fun _ pt _ => pt ++ List.replicate 16 0) (fun _ => [7])
    (fun _ => some (buildManifest ("a") [1, 2, 3])) (fun _ => true)
    (List.replicate 12 0) ("a") [1, 2, 3]
    (by intro n pt aad; simp)
    (by
      intro n pt
      show some ((pt ++ List.replicate 16 0).take ((pt ++ List.replicate 16 0).length - 16)) =
        some pt
      have h : (pt ++ List.replicate 16 0).length - 16 = pt.length := by simp
      rw [h, List.take_left])
    (by
      intro n pt
      show some ((pt ++ List.replicate 16 0).take ((pt ++ List.replicate 16 0).length - 16)) =
        some pt
      have h : (pt ++ List.replicate 16 0).length - 16 = pt.length := by simp
      rw [h, List.take_left])
    rfl
    (by norm_num)
    (fun _ => rfl)

/-- C3: the receiver renames the temporary file to the final path only when
the SHA-256 of all decrypted plaintext (hex-encoded) equals the declared
manifest hash; on mismatch it deletes the temp file and fails with a
hash-mismatch error carrying the computed and expected digests (which then
differ); the final path is occupied only in the successful-verification
outcome. -/
theorem claim_C3 (openFn : List Nat → List Nat → List Nat → Option (List Nat))
    (jsonDec : List Nat → Option Manifest) (wOk : Nat → Bool) (base s : List Nat) :
    (∀ p cont, (receiveBody openFn jsonDec wOk base s).final = some (p, cont) →
       ∃ m, (receiveBody openFn jsonDec wOk base s).man = some m ∧
         hexEncode (sha256 cont) = m.hash ∧ p = outPathOf m.name ∧
         (receiveBody openFn jsonDec wOk base s).tmp = none ∧
         (receiveBody openFn jsonDec wOk base s).err = none ∧
         (receiveBody openFn jsonDec wOk base s).ret = some (m, outPathOf m.name)) ∧
    (∀ comp exp, (receiveBody openFn jsonDec wOk base s).err =
        some (.hashMismatch comp exp) →
       (receiveBody openFn jsonDec wOk base s).tmp = none ∧
       (receiveBody openFn jsonDec wOk base s).final = none ∧
       (receiveBody openFn jsonDec wOk base s).ret = none ∧
       comp ≠ exp ∧
       ∃ m, (receiveBody openFn jsonDec wOk base s).man = some m ∧ exp = m.hash ∧
         ∃ acc2, comp = hexEncode (sha256 acc2)) := by
  obtain hsh := receiveBody_shape openFn jsonDec wOk base s _ rfl
  constructor
  · intro p cont hfin
    rcases hsh with ⟨_, _, hf, _, _⟩ | ⟨man, hman, hcase⟩
    · rw [hf] at hfin
      exact absurd hfin (by simp)
    · rcases hcase with ⟨_, hf, _, _, _⟩ | ⟨hb, r, _, _, hcase2⟩
      · rw [hf] at hfin
        exact absurd hfin (by simp)
      · rcases hcase2 with ⟨e, _, _, hf, _, _⟩ | ⟨_, _, _, hf, _, _⟩ |
          ⟨_, hhash, htmp, hf, ho, hret⟩
        · rw [hf] at hfin
          exact absurd hfin (by simp)
        · rw [hf] at hfin
          exact absurd hfin (by simp)
        · rw [hf] at hfin
          simp only [Option.some.injEq, Prod.mk.injEq] at hfin
          obtain ⟨hp, hcont⟩ := hfin
          refine ⟨man, hman, ?_, hp.symm, htmp, ho, hret⟩
          rw [← hcont]
          exact hhash
  · intro comp exp herr2
    rcases hsh with ⟨_, _, _, _, e, he, hcases⟩ | ⟨man, hman, hcase⟩
    · rw [he] at herr2
      simp only [Option.some.injEq] at herr2
      subst herr2
      rcases hcases with h | h | h | h <;> exact absurd h (by simp)
    · rcases hcase with ⟨_, _, ho, _, _⟩ | ⟨hb, r, hhb, hr, hcase2⟩
      · rw [ho] at herr2
        simp at herr2
      · rcases hcase2 with ⟨e, herr, _, _, ho, _⟩ | ⟨_, hhash, htmp, hfin, ho, hret⟩ |
          ⟨_, _, _, _, ho, _⟩
        · rw [ho] at herr2
          simp only [Option.some.injEq] at herr2
          subst herr2
          rw [hr] at herr
          exact absurd herr (recvLoop_no_mismatch openFn wOk base hb man.size _ _ _ _ _ comp exp)
        · rw [ho] at herr2
          simp only [Option.some.injEq, RecvErr.hashMismatch.injEq] at herr2
          obtain ⟨hcomp, hexp⟩ := herr2
          refine ⟨htmp, hfin, hret, ?_, man, hman, hexp.symm, r.acc, hcomp.symm⟩
          rw [← hcomp, ← hexp]
          exact hhash
        · rw [ho] at herr2
          exact absurd herr2 (by simp)

/-- Witness for C3: a manifest whose declared hash `"00"` does not match the
(empty) received content produces a hash-mismatch error, the temp file is
deleted, and both digests are reported. -/
theorem claim_C3_witness :
    (receiveBody (fun _ ct _ => some ct) (fun _ => some ⟨"f", 0, "00"⟩) (fun _ => true)
        (List.replicate 12 0) [0, 0, 0, 0]).tmp = none ∧
    (receiveBody (fun _ ct _ => some ct) (fun _ => some ⟨"f", 0, "00"⟩) (fun _ => true)
        (List.replicate 12 0) [0, 0, 0, 0]).final = none ∧
    (receiveBody (fun _ ct _ => some ct) (fun _ => some ⟨"f", 0, "00"⟩) (fun _ => true)
        (List.replicate 12 0) [0, 0, 0, 0]).ret = none ∧
    "e3b0c44298fc1c149afbf4c8996fb92427ae41e4649b934ca495991b7852b855" ≠ "00" ∧
    ∃ m, (receiveBody (fun _ ct _ => some ct) (fun _ => some ⟨"f", 0, "00"⟩) (fun _ => true)
        (List.replicate 12 0) [0, 0, 0, 0]).man = some m ∧ "00" = m.hash ∧
      ∃ acc2, "e3b0c44298fc1c149afbf4c8996fb92427ae41e4649b934ca495991b7852b855" =
        hexEncode (sha256 acc2) :=
  (claim_C3 (fun _ ct _ => some ct) (fun _ => some ⟨"f", 0, "00"⟩) (fun _ => true)
      (List.replicate 12 0) [0, 0, 0, 0]).2
    ("e3b0c44298fc1c149afbf4c8996fb92427ae41e4649b934ca495991b7852b855") ("00") (by decide)

/-- C9: if `Receive` fails after creating the temporary output file for any
reason other than a final hash mismatch (invalid manifest hash hex, a short
or unreadable chunk frame, an AEAD authentication failure, a local write
error), the `<name>.part` file is left on disk; only the hash-mismatch
branch removes it; and no error outcome ever creates the final path. -/
theorem claim_C9 (openFn : List Nat → List Nat → List Nat → Option (List Nat))
    (jsonDec : List Nat → Option Manifest) (wOk : Nat → Bool) (base s : List Nat)
    (e : RecvErr) (he : (receiveBody openFn jsonDec wOk base s).err = some e) :
    ((e = .decodeHash ∨ e = .readChunkLen ∨ e = .readChunk ∨ e = .decryptChunk ∨
        e = .writeFile) →
      (∃ m cont, (receiveBody openFn jsonDec wOk base s).man = some m ∧
        (receiveBody openFn jsonDec wOk base s).tmp = some (tmpPathOf m.name, cont)) ∧
      (receiveBody openFn jsonDec wOk base s).final = none ∧
      (receiveBody openFn jsonDec wOk base s).ret = none) ∧
    (∀ comp exp, e = .hashMismatch comp exp →
      (receiveBody openFn jsonDec wOk base s).tmp = none ∧
      (receiveBody openFn jsonDec wOk base s).final = none) := by
  obtain hsh := receiveBody_shape openFn jsonDec wOk base s _ rfl
  constructor
  · intro hel
    rcases hsh with ⟨_, _, _, _, e2, he2, hcases⟩ | ⟨man, hman, hcase⟩
    · rw [he2] at he
      simp only [Option.some.injEq] at he
      subst he
      rcases hcases with h | h | h | h <;>
        (subst h; rcases hel with h2 | h2 | h2 | h2 | h2 <;> exact absurd h2 (by simp))
    · rcases hcase with ⟨htmp, hfin, ho, hret, _⟩ | ⟨hb, r, hhb, hr, hcase2⟩
      · exact ⟨⟨man, [], hman, htmp⟩, hfin, hret⟩
      · rcases hcase2 with ⟨e3, herr, htmp, hfin, ho, hret⟩ | ⟨_, _, _, hfin, ho, hret⟩ |
          ⟨_, _, _, _, ho, _⟩
        · exact ⟨⟨man, r.acc, hman, htmp⟩, hfin, hret⟩
        · rw [ho] at he
          simp only [Option.some.injEq] at he
          subst he
          rcases hel with h2 | h2 | h2 | h2 | h2 <;> exact absurd h2 (by simp)
        · rw [ho] at he
          exact absurd he (by simp)
  · intro comp exp hemm
    subst hemm
    rcases hsh with ⟨_, _, _, _, e2, he2, hcases⟩ | ⟨man, hman, hcase⟩
    · rw [he2] at he
      simp only [Option.some.injEq] at he
      rcases hcases with h | h | h | h <;> (rw [h] at he; exact absurd he (by simp))
    · rcases hcase with ⟨_, _, ho, _, _⟩ | ⟨hb, r, hhb, hr, hcase2⟩
      · rw [ho] at he
        simp at he
      · rcases hcase2 with ⟨e3, herr, _, _, ho, _⟩ | ⟨_, _, htmp, hfin, ho, _⟩ |
          ⟨_, _, _, _, ho, _⟩
        · rw [ho] at he
          simp only [Option.some.injEq] at he
          subst he
          rw [hr] at herr
          exact absurd herr (recvLoop_no_mismatch openFn wOk base hb man.size _ _ _ _ _ comp exp)
        · exact ⟨htmp, hfin⟩
        · rw [ho] at he
          exact absurd he (by simp)

/-- Witness for C9: a stream that ends right after the manifest with a
declared size of 1 leaves the empty `public/f.part` on disk and nothing at
the final path. -/
theorem claim_C9_witness :
    (∃ m cont, (receiveBody (fun _ ct _ => some ct)
        (fun _ => some ⟨"f", 1, "00"⟩) (fun _ => true)
        (List.replicate 12 0) [0, 0, 0, 0]).man = some m ∧
      (receiveBody (fun _ ct _ => some ct) (fun _ => some ⟨"f", 1, "00"⟩) (fun _ => true)
        (List.replicate 12 0) [0, 0, 0, 0]).tmp = some (tmpPathOf m.name, cont)) ∧
    (receiveBody (fun _ ct _ => some ct) (fun _ => some ⟨"f", 1, "00"⟩) (fun _ => true)
        (List.replicate 12 0) [0, 0, 0, 0]).final = none ∧
    (receiveBody (fun _ ct _ => some ct) (fun _ => some ⟨"f", 1, "00"⟩) (fun _ => true)
        (List.replicate 12 0) [0, 0, 0, 0]).ret = none :=
  (claim_C9 (fun _ ct _ => some ct) (fun _ => some ⟨"f", 1, "00"⟩) (fun _ => true)
      (List.replicate 12 0) [0, 0, 0, 0] .readChunkLen (by decide)).1
    (Or.inr (Or.inl rfl))

/-- C10: if the declared size in the decoded manifest is zero or negative, the
chunk loop performs zero iterations (it returns immediately, consuming
nothing), and the receiver finalizes an empty output file exactly when the
declared hash equals the hex-encoded SHA-256 of the empty byte string. -/
theorem claim_C10 (openFn : List Nat → List Nat → List Nat → Option (List Nat))
    (jsonDec : List Nat → Option Manifest) (wOk : Nat → Bool) (base s : List Nat)
    (m : Manifest)
    (hman : (receiveBody openFn jsonDec wOk base s).man = some m)
    (hsz : m.size ≤ 0) :
    ((∃ pc, (receiveBody openFn jsonDec wOk base s).final = some pc) ↔
       m.hash = hexEncode (sha256 [])) ∧
    (m.hash = hexEncode (sha256 []) →
       (receiveBody openFn jsonDec wOk base s).final = some (outPathOf m.name, []) ∧
       (receiveBody openFn jsonDec wOk base s).err = none ∧
       (receiveBody openFn jsonDec wOk base s).ret = some (m, outPathOf m.name)) ∧
    (∀ hb s2, recvLoop openFn wOk base hb m.size s2 0 [] 1 0 = ⟨[], 0, 1, s2, none⟩) ∧
    hexEncode (sha256 []) =
      "e3b0c44298fc1c149afbf4c8996fb92427ae41e4649b934ca495991b7852b855" := by
  have hconst : hexEncode (sha256 []) =
      "e3b0c44298fc1c149afbf4c8996fb92427ae41e4649b934ca495991b7852b855" := by decide
  have hloop : ∀ hb s2, recvLoop openFn wOk base hb m.size s2 0 [] 1 0 = ⟨[], 0, 1, s2, none⟩ :=
    fun hb s2 => recvLoop_immediate openFn wOk base hb m.size s2 0 [] 1 0 hsz
  obtain hsh := receiveBody_shape openFn jsonDec wOk base s _ rfl
  rcases hsh with ⟨hm0, _⟩ | ⟨man, hman2, hcase⟩
  · rw [hm0] at hman
    exact absurd hman (by simp)
  · have hmm : man = m := by
      rw [hman2] at hman
      exact Option.some.inj hman
    subst hmm
    rcases hcase with ⟨htmp, hfin, ho, hret, hhexnone⟩ | ⟨hb, r, hhb, hr, hcase2⟩
    · have hneq : man.hash ≠ hexEncode (sha256 []) := by
        intro hcontra
        rw [hcontra, hexDecode_hexEncode _ (mem_sha256_lt [])] at hhexnone
        exact absurd hhexnone (by simp)
      refine ⟨⟨?_, fun hcontra => absurd hcontra hneq⟩,
        fun hcontra => absurd hcontra hneq, hloop, hconst⟩
      rintro ⟨pc, hpc⟩
      rw [hfin] at hpc
      exact absurd hpc (by simp)
    · have hrval : r = ⟨[], 0, 1, (s.drop 4).drop (be32val (s.take 4)), none⟩ := by
        rw [hr]
        exact hloop hb _
      rcases hcase2 with ⟨e, herr, _, _, _, _⟩ | ⟨hrerr, hhash, htmp, hfin, ho, hret⟩ |
        ⟨hrerr, hhash, htmp, hfin, ho, hret⟩
      · rw [hrval] at herr
        exact absurd herr (by simp)
      · have hacc : r.acc = [] := by rw [hrval]
        rw [hacc] at hhash
        refine ⟨⟨?_, fun hcontra => absurd hcontra.symm hhash⟩,
          fun hcontra => absurd hcontra.symm hhash, hloop, hconst⟩
        rintro ⟨pc, hpc⟩
        rw [hfin] at hpc
        exact absurd hpc (by simp)
      · have hacc : r.acc = [] := by rw [hrval]
        rw [hacc] at hhash
        rw [hacc] at hfin
        exact ⟨⟨fun _ => hhash.symm, fun _ => ⟨_, hfin⟩⟩,
          fun _ => ⟨hfin, ho, hret⟩, hloop, hconst⟩

/-- Witness for C10: a zero-size manifest declaring the empty-string hash
finalizes an empty `public/f`. -/
theorem claim_C10_witness :
    (receiveBody (fun _ ct _ => some ct)
        (fun _ => some ⟨"f", 0,
          "e3b0c44298fc1c149afbf4c8996fb92427ae41e4649b934ca495991b7852b855"⟩)
        (fun _ => true) (List.replicate 12 0) [0, 0, 0, 0]).final =
      some (outPathOf ("f"), []) ∧
    (receiveBody (fun _ ct _ => some ct)
        (fun _ => some ⟨"f", 0,
          "e3b0c44298fc1c149afbf4c8996fb92427ae41e4649b934ca495991b7852b855"⟩)
        (fun _ => true) (List.replicate 12 0) [0, 0, 0, 0]).err = none ∧
    (receiveBody (fun _ ct _ => some ct)
        (fun _ => some ⟨"f", 0,
          "e3b0c44298fc1c149afbf4c8996fb92427ae41e4649b934ca495991b7852b855"⟩)
        (fun _ => true) (List.replicate 12 0) [0, 0, 0, 0]).ret =
      some (⟨"f", 0,
          "e3b0c44298fc1c149afbf4c8996fb92427ae41e4649b934ca495991b7852b855"⟩,
        outPathOf ("f")) :=
  (claim_C10 (fun _ ct _ => some ct)
      (fun _ => some ⟨"f", 0,
        "e3b0c44298fc1c149afbf4c8996fb92427ae41e4649b934ca495991b7852b855"⟩)
      (fun _ => true) (List.replicate 12 0) [0, 0, 0, 0]
      ⟨"f", 0, "e3b0c44298fc1c149afbf4c8996fb92427ae41e4649b934ca495991b7852b855"⟩
      (by decide) (by decide)).2.1 (by decide)

/-- C7 (amended: for every manifest name all of whose path components are
plain — at least one component, none equal to `..` — both paths lie within
the fixed `public` directory): the receiver only ever touches
`filepath.Join("public", name) + ".part"` and `filepath.Join("public", name)`;
without the restriction the lexical cleaning in `Join` lets `..` components
escape the directory. -/
theorem claim_C7 (openFn : List Nat → List Nat → List Nat → Option (List Nat))
    (jsonDec : List Nat → Option Manifest) (wOk : Nat → Bool) (base s : List Nat) :
    (∀ m, (receiveBody openFn jsonDec wOk base s).man = some m →
       (∀ p cont, (receiveBody openFn jsonDec wOk base s).tmp = some (p, cont) →
          p = tmpPathOf m.name) ∧
       (∀ p cont, (receiveBody openFn jsonDec wOk base s).final = some (p, cont) →
          p = outPathOf m.name)) ∧
    (∀ nm, safeName nm →
       withinPublic (outPathOf nm) = true ∧ withinPublic (tmpPathOf nm) = true) := by
  refine ⟨?_, fun nm h => ⟨withinPublic_outPath nm h, withinPublic_tmpPath nm h⟩⟩
  intro m hman
  obtain hsh := receiveBody_shape openFn jsonDec wOk base s _ rfl
  rcases hsh with ⟨hm0, _⟩ | ⟨man, hman2, hcase⟩
  · rw [hm0] at hman
    exact absurd hman (by simp)
  · have hmm : man = m := by
      rw [hman2] at hman
      exact Option.some.inj hman
    subst hmm
    constructor
    · intro p cont htmp2
      rcases hcase with ⟨htmp, _, _, _, _⟩ | ⟨hb, r, _, _, hcase2⟩
      · rw [htmp] at htmp2
        simp only [Option.some.injEq, Prod.mk.injEq] at htmp2
        exact htmp2.1.symm
      · rcases hcase2 with ⟨e, _, htmp, _, _, _⟩ | ⟨_, _, htmp, _, _, _⟩ |
          ⟨_, _, htmp, _, _, _⟩
        · rw [htmp] at htmp2
          simp only [Option.some.injEq, Prod.mk.injEq] at htmp2
          exact htmp2.1.symm
        · rw [htmp] at htmp2
          exact absurd htmp2 (by simp)
        · rw [htmp] at htmp2
          exact absurd htmp2 (by simp)
    · intro p cont hfin2
      rcases hcase with ⟨_, hfin, _, _, _⟩ | ⟨hb, r, _, _, hcase2⟩
      · rw [hfin] at hfin2
        exact absurd hfin2 (by simp)
      · rcases hcase2 with ⟨e, _, _, hfin, _, _⟩ | ⟨_, _, _, hfin, _, _⟩ |
          ⟨_, _, _, hfin, _, _⟩
        · rw [hfin] at hfin2
          exact absurd hfin2 (by simp)
        · rw [hfin] at hfin2
          exact absurd hfin2 (by simp)
        · rw [hfin] at hfin2
          simp only [Option.some.injEq, Prod.mk.injEq] at hfin2
          exact hfin2.1.symm

/-- Witness for C7 at the safe name `"x"`. -/
theorem claim_C7_witness :
    withinPublic (outPathOf ("x")) = true ∧ withinPublic (tmpPathOf ("x")) = true :=
  (claim_C7 (fun _ _ _ => none) (fun _ => none) (fun _ => true) [] []).2 ("x") (by decide)

/-- C7 counterexample: a received manifest named `"../x"` makes the receiver
finalize the file at path `"x"`, outside the `public` directory —
`filepath.Join` cleans away the traversal, so the universal claim over manifest names fails. -/
theorem claim_C7_counterexample :
    outPathOf ("../x") = "x" ∧
    withinPublic (outPathOf ("../x")) = false ∧
    (receiveBody (fun _ ct _ => some ct)
        (fun _ => some ⟨"../x", 0,
          "e3b0c44298fc1c149afbf4c8996fb92427ae41e4649b934ca495991b7852b855"⟩)
        (fun _ => true) (List.replicate 12 0) [0, 0, 0, 0]).final =
      some ("x", []) := by
  refine ⟨by decide, by decide, by decide⟩

/-- C2: whenever `Send` produces output, the key-delivery header it writes
is `0x02 | uint32(len(encKey)) | encKey | baseNonce` where `encKey` is the
session key encrypted under the public key parsed from the previously
announced public key — and the session key influences the stream only through the
asymmetric encryption and the AEAD built from it (so the raw key bytes are
never written to the stream): two keys with the same encryption and the
same AEAD produce identical streams. -/
theorem claim_C2 {P : Type} (parsePub : List Nat → Option P)
    (rsaEnc : P → List Nat → List Nat)
    (sealOf : List Nat → List Nat → List Nat → List Nat → List Nat)
    (jsonEnc : Manifest → List Nat) (key base : List Nat) (name : String)
    (data input : List Nat) :
    (∀ out, sendRun parsePub rsaEnc sealOf jsonEnc key base name data input = some out →
       ∃ pub, parsePub ((input.drop 5).take (be32val ((input.drop 1).take 4))) = some pub ∧
         out = 2 :: (be32 (rsaEnc pub key).length ++ rsaEnc pub key ++ base ++
           sendFrames (sealOf key) base (jsonEnc (buildManifest name data))
             (sha256 data) data)) ∧
    (∀ key2, (∀ pub, rsaEnc pub key = rsaEnc pub key2) → sealOf key = sealOf key2 →
       sendRun parsePub rsaEnc sealOf jsonEnc key base name data input =
         sendRun parsePub rsaEnc sealOf jsonEnc key2 base name data input) := by
  constructor
  · intro out hout
    cases input with
    | nil => simp [sendRun] at hout
    | cons t in1 =>
      simp only [sendRun] at hout
      split at hout
      · exact absurd hout (by simp)
      · split at hout
        · exact absurd hout (by simp)
        · split at hout
          · exact absurd hout (by simp)
          · split at hout
            · exact absurd hout (by simp)
            · split at hout
              · exact absurd hout (by simp)
              · rename_i pub hpub
                split at hout
                · rename_i hhex
                  rw [hexDecode_buildManifest] at hhex
                  exact absurd hhex (by simp)
                · rename_i hb hhex
                  rw [hexDecode_buildManifest] at hhex
                  injection hhex with h2
                  subst h2
                  refine ⟨pub, hpub, ?_⟩
                  have h3 := Option.some.inj hout
                  rw [← h3]
  · intro key2 hrsa hseal2
    unfold sendRun
    cases input with
    | nil => rfl
    | cons t in1 =>
      simp only [hrsa, hseal2]

/-- Witness for C2: a concrete run of the sender with toy primitives. -/
theorem claim_C2_witness :
    ∃ pub, (fun (_ : List Nat) => some (0 : Nat))
        (((([1, 0, 0, 0, 1, 5] : List Nat).drop 5)).take
          (be32val ((([1, 0, 0, 0, 1, 5] : List Nat).drop 1).take 4))) = some pub ∧
      ([2, 0, 0, 0, 2, 9, 1, 0, 0, 0, 0, 0, 0, 0, 0, 0, 0, 0, 0, 0, 0, 0, 1, 3] : List Nat) =
        2 :: (be32 ((fun (_ : Nat) (k : List Nat) => k ++ [1]) pub [9]).length ++
          (fun (_ : Nat) (k : List Nat) => k ++ [1]) pub [9] ++ List.replicate 12 0 ++
          sendFrames ((fun (_ _ pt _ : List Nat) => pt) [9]) (List.replicate 12 0)
            ((fun (_ : Manifest) => [3]) (buildManifest ("a") [])) (sha256 []) []) :=
  (claim_C2 (fun _ => some 0) (fun _ k => k ++ [1]) (fun _ _ pt _ => pt)
      (fun _ => [3]) [9] (List.replicate 12 0) ("a") [] [1, 0, 0, 0, 1, 5]).1
    [2, 0, 0, 0, 2, 9, 1, 0, 0, 0, 0, 0, 0, 0, 0, 0, 0, 0, 0, 0, 0, 0, 1, 3] (by decide)

end LearnP2P
